import Mathlib

/-! logbrowser: viewport, navigation and mark ring

A shallow embedding of `main.go`.

* Go `int` is a 64-bit two's-complement integer whose arithmetic wraps.  The
  event handler is given twice: `processKey64` performs every addition and
  subtraction of the source through `wrap64`, and is the program on all
  inputs; `processKey` performs them on unbounded `Int`.  The two agree as
  long as offsets and sizes stay below `2^61` in absolute value
  (`processKey64_eq_processKey`), which covers every session of realistic
  length, and the unbounded form is used where no value can leave the 64-bit
  range or where the arithmetic plays no part.
* Go's `/` on `int` truncates toward zero; it is `Int.tdiv` here.
* An index expression `xs[i]` that Go would abort with a run-time panic is
  modelled by `Option`: `none` is the panic.
* The terminal (`tcell.Screen`) is external.  What the program reads from it
  (`s.Size()`, the polled event) is an input of the model; what it writes to
  it (`s.SetContent`) is recorded as a list of calls, in program order.
-/

namespace Logbrowser

/-! ## Data model (`main.go` lines 31-44) -/

/-- The `tcell.Style` value handed through to `SetContent`; the program never
inspects it. -/
structure Style where
  code : Nat
deriving DecidableEq, Repr

/-- The struct `Coords`. -/
structure Coords where
  x : Int
  y : Int
deriving DecidableEq, Repr

/-- The struct `Mark`. -/
structure Mark where
  coords : Coords
  note : String
deriving DecidableEq, Repr

/-- The struct `Buffer`. -/
structure Buffer where
  currentOffset : Coords
  lines : List String
deriving DecidableEq, Repr

/-- The pair `(w, h)` returned by one call of `s.Size()`. -/
structure Size where
  w : Int
  h : Int
deriving DecidableEq, Repr

/-- One call `s.SetContent(col, row, r, nil, style)`. -/
structure SetContent where
  col : Int
  row : Int
  r : Char
  style : Style
deriving DecidableEq, Repr

/-! ## Rendering (`main.go` lines 13-29 and 63-74) -/

/-- The first loop of `drawLine`: one `SetContent` per rune, `col++`, and
`break` as soon as `col >= w`.  Returns the calls made and the final `col`. -/
def drawRunes (w row : Int) (style : Style) : Int → List Char → List SetContent × Int
  | col, [] => ([], col)
  | col, r :: rs =>
    let call : SetContent := ⟨col, row, r, style⟩
    if col + 1 ≥ w then ([call], col + 1)
    else
      let rest := drawRunes w row style (col + 1) rs
      (call :: rest.1, rest.2)

/-- The second loop of `drawLine`: `for i := col; i < w; i++` writing blanks. -/
def drawBlanks (w row : Int) (style : Style) (col : Int) : List SetContent :=
  (List.range (w - col).toNat).map fun (i : Nat) => ⟨col + (i : Int), row, ' ', style⟩

/-- The function `drawLine(s, x, y, style, text)`; `sz` is what `s.Size()` returns. -/
def drawLine (sz : Size) (x y : Int) (style : Style) (text : String) : List SetContent :=
  let w := sz.w
  let row := y
  let written := drawRunes w row style x text.toList
  let col := written.2
  if col < w - 1 then written.1 ++ drawBlanks w row style col
  else written.1

/-- The index expression `buf.lines[lineIndex]` with a Go `int` index: `none`
is the index-out-of-range panic. -/
def lineAt (lines : List String) (lineIndex : Int) : Option String :=
  if 0 ≤ lineIndex then lines[lineIndex.toNat]? else none

/-- The row bound of `renderViewPort`: `h` from `s.Size()`, lowered to
`len(buf.lines)` when larger. -/
def renderHeight (sz : Size) (buf : Buffer) : Int :=
  if sz.h > (buf.lines.length : Int) then (buf.lines.length : Int) else sz.h

/-- The rows `y` visited by `for y := 0; y < h; y++` in `renderViewPort`. -/
def renderRows (sz : Size) (buf : Buffer) : List Nat :=
  List.range (renderHeight sz buf).toNat

/-- The values of `lineIndex` computed by `renderViewPort`, one per visited row. -/
def renderIndices (sz : Size) (buf : Buffer) : List Int :=
  (renderRows sz buf).map fun (y : Nat) => buf.currentOffset.y + (y : Int)

/-- The body of the loop of `renderViewPort` over the given rows. -/
def renderLoop (sz : Size) (style : Style) (buf : Buffer) : List Nat → Option (List SetContent)
  | [] => some []
  | y :: ys =>
    let lineIndex := buf.currentOffset.y + (y : Int)
    match lineAt buf.lines lineIndex with
    | none => none
    | some text =>
      match renderLoop sz style buf ys with
      | none => none
      | some rest => some (drawLine sz buf.currentOffset.x (y : Int) style text ++ rest)

/-- The function `renderViewPort(s, style, buf)`: the `SetContent` calls of one
frame, or `none` when a line lookup panics. -/
def renderViewPort (sz : Size) (style : Style) (buf : Buffer) : Option (List SetContent) :=
  renderLoop sz style buf (renderRows sz buf)

/-- What a sequence of `SetContent` calls leaves in the cell `(col, row)`: the
rune and style of the last call on that cell, `none` when no call touches it (the
cell then keeps what it held before). -/
def lastWrite : List SetContent → Int → Int → Option (Char × Style)
  | [], _, _ => none
  | c :: cs, col, row =>
    match lastWrite cs col row with
    | some v => some v
    | none => if c.col = col ∧ c.row = row then some (c.r, c.style) else none

/-- A five-line file, used to evaluate the program on concrete sessions. -/
def fiveLines : List String := ["a", "b", "c", "d", "e"]

/-- A three-line file, shorter than the screens it is shown on below. -/
def threeLines : List String := ["a", "b", "c"]

/-! ## Events and the session state (`main.go` lines 119-157) -/

/-- The values of `ev.Key()` that `main` distinguishes. -/
inductive Key where
  | Rune
  | Escape
  | CtrlC
  | CtrlL
  | CtrlD
  | CtrlU
  | Other
deriving DecidableEq, Repr

/-- A `*tcell.EventKey`: its `Key()` and its `Rune()`. -/
structure EventKey where
  key : Key
  rune : Char
deriving DecidableEq, Repr

/-- What `s.PollEvent()` returns, by the cases of the type switch. -/
inductive Event where
  | resize
  | key (ev : EventKey)
  | other
deriving DecidableEq, Repr

/-- The variables the event loop mutates: `buf`, `marks` and `currentMark`. -/
structure Session where
  buf : Buffer
  marks : List Mark
  currentMark : Int
deriving DecidableEq, Repr

/-- The state `main` enters the event loop with: offset `(0,0)` (the zero value
of `Buffer.currentOffset`), `marks := []Mark{}` and `currentMark := -1`. -/
def Session.start (lines : List String) : Session :=
  { buf := { currentOffset := ⟨0, 0⟩, lines := lines }, marks := [], currentMark := -1 }

/-- The closure `isExitKey`.  `unicode.ToLower(r) == 'q'` holds for `q` and `Q`
only, both ASCII, where `Char.toLower` agrees with `unicode.ToLower`. -/
def isExitKey (ev : EventKey) : Bool :=
  match ev.key with
  | .Escape => true
  | .CtrlC => true
  | _ => if ev.rune.toLower = 'q' then true else false

/-- The closure `nextMark`. -/
def nextMark (st : Session) : Session :=
  if st.marks.length = 0 then st
  else
    let c := st.currentMark + 1
    if c ≥ (st.marks.length : Int) then { st with currentMark := 0 }
    else { st with currentMark := c }

/-- The closure `prevMark`. -/
def prevMark (st : Session) : Session :=
  if st.marks.length = 0 then st
  else
    let c := st.currentMark - 1
    if c < 0 then { st with currentMark := (st.marks.length : Int) - 1 }
    else { st with currentMark := c }

/-- The index expression `marks[currentMark]`: `none` is the panic. -/
def markAt (marks : List Mark) (i : Int) : Option Mark :=
  if 0 ≤ i then marks[i.toNat]? else none

/-! ## The event loop (`main.go` lines 159-262) -/

/-- What handling one event does to the loop. -/
inductive Outcome where
  | next (st : Session)
  | quit
  | crash
deriving DecidableEq, Repr

/-- The assignment `buf.currentOffset.y = v`. -/
def Session.setY (st : Session) (v : Int) : Session :=
  { st with buf := { st.buf with currentOffset := { st.buf.currentOffset with y := v } } }

/-- The assignment `buf.currentOffset.x = v`. -/
def Session.setX (st : Session) (v : Int) : Session :=
  { st with buf := { st.buf with currentOffset := { st.buf.currentOffset with x := v } } }

/-- The assignment `buf.currentOffset = marks[currentMark].coords` that ends the
`n` and `p` branches, after their test `currentMark < 0`. -/
def jumpToMark (st : Session) : Outcome :=
  if st.currentMark < 0 then .next st
  else
    match markAt st.marks st.currentMark with
    | none => .crash
    | some m => .next { st with buf := { st.buf with currentOffset := m.coords } }

/-- The `*tcell.EventKey` case of the type switch: the chain of `if`/`else if`
in source order.  `sz` is what `s.Size()` returns inside the branch. -/
def processKey (sz : Size) (ev : EventKey) (st : Session) : Outcome :=
  let x := st.buf.currentOffset.x
  let y := st.buf.currentOffset.y
  let n : Int := st.buf.lines.length
  let h := sz.h
  let w := sz.w
  if isExitKey ev then .quit
  else if ev.key = .CtrlL then .next st
  else if ev.rune = ' ' then .next (st.setY (y + (h - 1)))
  else if ev.rune = 'b' then
    let y1 := y - (h - 1)
    .next (st.setY (if y1 < 0 then 0 else y1))
  else if ev.rune = 'j' then
    let y1 := y + 1
    .next (st.setY (if y1 + h ≥ n then n - h else y1))
  else if ev.rune = 'k' then
    let y1 := y - 1
    .next (st.setY (if y1 < 0 then 0 else y1))
  else if ev.rune = 'J' then
    let y1 := y + Int.tdiv h 2
    .next (st.setY (if y1 + h ≥ n then n - h else y1))
  else if ev.key = .CtrlD then
    let y1 := y + Int.tdiv h 2
    .next (st.setY (if y1 + h ≥ n then n - h else y1))
  else if ev.rune = 'K' then
    let y1 := y - Int.tdiv h 2
    .next (st.setY (if y1 < 0 then 0 else y1))
  else if ev.key = .CtrlU then
    let y1 := y - Int.tdiv h 2
    .next (st.setY (if y1 < 0 then 0 else y1))
  else if ev.rune = 'h' then
    let x1 := x + 1
    .next (st.setX (if x1 > 0 then 0 else x1))
  else if ev.rune = 'l' then .next (st.setX (x - 1))
  else if ev.rune = 'H' then
    let x1 := x + Int.tdiv w 2
    .next (st.setX (if x1 > 0 then 0 else x1))
  else if ev.rune = 'L' then .next (st.setX (x - Int.tdiv w 2))
  else if ev.rune = '0' then .next (st.setX 0)
  else if ev.rune = 'g' then .next (st.setY 0)
  else if ev.rune = 'G' then .next (st.setY (n - h))
  else if ev.rune = 'm' then
    .next (nextMark { st with marks := st.marks ++ [⟨st.buf.currentOffset, ""⟩] })
  else if ev.rune = 'n' then jumpToMark (nextMark st)
  else if ev.rune = 'p' then jumpToMark (prevMark st)
  else .next st

/-- The type switch on the polled event.  `s.Sync()` of the resize case touches
the terminal only. -/
def processEvent (sz : Size) (ev : Event) (st : Session) : Outcome :=
  match ev with
  | .resize => .next st
  | .key k => processKey sz k st
  | .other => .next st

/-- The event handling of successive loop iterations, each event paired with the
screen size its branch reads; rendering left out (it does not change the state). -/
def runEvents (st : Session) : List (Size × Event) → Outcome
  | [] => .next st
  | e :: es =>
    match processEvent e.1 e.2 st with
    | .next st1 => runEvents st1 es
    | .quit => .quit
    | .crash => .crash

/-- One iteration of the event loop as `main` sees the terminal: the size read by
`renderViewPort`, the event polled, and the size read while handling it. -/
structure Frame where
  renderSize : Size
  ev : Event
  evSize : Size
deriving DecidableEq, Repr

/-- The loop `for { renderViewPort(...); s.Show(); ev := s.PollEvent(); ... }`
run over the given iterations.  `.next st` means every iteration given was
completed and the loop goes on in state `st`; `.quit` is the `return` of an exit
key; `.crash` is a panic, in a render or in an event branch. -/
def eventLoop (style : Style) (st : Session) : List Frame → Outcome
  | [] => .next st
  | f :: fs =>
    match renderViewPort f.renderSize style st.buf with
    | none => .crash
    | some _ =>
      match processEvent f.evSize f.ev st with
      | .next st1 => eventLoop style st1 fs
      | .quit => .quit
      | .crash => .crash

/-! ## The event handler on 64-bit integers -/

/-- The value a Go `int` holds after an operation whose exact result is `v`:
`v` reduced into `[-2^63, 2^63)` modulo `2^64`. -/
def wrap64 (v : Int) : Int :=
  (v + 9223372036854775808) % 18446744073709551616 - 9223372036854775808

/-- The values a Go `int` can hold. -/
def IsInt64 (v : Int) : Prop :=
  -9223372036854775808 ≤ v ∧ v < 9223372036854775808

/-- The closure `nextMark`, with `currentMark++` on a Go `int`. -/
def nextMark64 (st : Session) : Session :=
  if st.marks.length = 0 then st
  else
    let c := wrap64 (st.currentMark + 1)
    if c ≥ (st.marks.length : Int) then { st with currentMark := 0 }
    else { st with currentMark := c }

/-- The closure `prevMark`, with `currentMark--` and `len(marks) - 1` on Go
`int`. -/
def prevMark64 (st : Session) : Session :=
  if st.marks.length = 0 then st
  else
    let c := wrap64 (st.currentMark - 1)
    if c < 0 then { st with currentMark := wrap64 ((st.marks.length : Int) - 1) }
    else { st with currentMark := c }

/-- The `*tcell.EventKey` case of the type switch with Go `int` arithmetic: the
same chain as `processKey`, every `+`, `-`, `++`, `--`, `+=` and `-=` of the
source followed by `wrap64`.  Division by 2 cannot leave the range. -/
def processKey64 (sz : Size) (ev : EventKey) (st : Session) : Outcome :=
  let x := st.buf.currentOffset.x
  let y := st.buf.currentOffset.y
  let n : Int := st.buf.lines.length
  let h := sz.h
  let w := sz.w
  if isExitKey ev then .quit
  else if ev.key = .CtrlL then .next st
  else if ev.rune = ' ' then .next (st.setY (wrap64 (y + wrap64 (h - 1))))
  else if ev.rune = 'b' then
    let y1 := wrap64 (y - wrap64 (h - 1))
    .next (st.setY (if y1 < 0 then 0 else y1))
  else if ev.rune = 'j' then
    let y1 := wrap64 (y + 1)
    .next (st.setY (if wrap64 (y1 + h) ≥ n then wrap64 (n - h) else y1))
  else if ev.rune = 'k' then
    let y1 := wrap64 (y - 1)
    .next (st.setY (if y1 < 0 then 0 else y1))
  else if ev.rune = 'J' then
    let y1 := wrap64 (y + Int.tdiv h 2)
    .next (st.setY (if wrap64 (y1 + h) ≥ n then wrap64 (n - h) else y1))
  else if ev.key = .CtrlD then
    let y1 := wrap64 (y + Int.tdiv h 2)
    .next (st.setY (if wrap64 (y1 + h) ≥ n then wrap64 (n - h) else y1))
  else if ev.rune = 'K' then
    let y1 := wrap64 (y - Int.tdiv h 2)
    .next (st.setY (if y1 < 0 then 0 else y1))
  else if ev.key = .CtrlU then
    let y1 := wrap64 (y - Int.tdiv h 2)
    .next (st.setY (if y1 < 0 then 0 else y1))
  else if ev.rune = 'h' then
    let x1 := wrap64 (x + 1)
    .next (st.setX (if x1 > 0 then 0 else x1))
  else if ev.rune = 'l' then .next (st.setX (wrap64 (x - 1)))
  else if ev.rune = 'H' then
    let x1 := wrap64 (x + Int.tdiv w 2)
    .next (st.setX (if x1 > 0 then 0 else x1))
  else if ev.rune = 'L' then .next (st.setX (wrap64 (x - Int.tdiv w 2)))
  else if ev.rune = '0' then .next (st.setX 0)
  else if ev.rune = 'g' then .next (st.setY 0)
  else if ev.rune = 'G' then .next (st.setY (wrap64 (n - h)))
  else if ev.rune = 'm' then
    .next (nextMark64 { st with marks := st.marks ++ [⟨st.buf.currentOffset, ""⟩] })
  else if ev.rune = 'n' then jumpToMark (nextMark64 st)
  else if ev.rune = 'p' then jumpToMark (prevMark64 st)
  else .next st

/-- The type switch on the polled event, with Go `int` arithmetic. -/
def processEvent64 (sz : Size) (ev : Event) (st : Session) : Outcome :=
  match ev with
  | .resize => .next st
  | .key k => processKey64 sz k st
  | .other => .next st

/-- The event handling of successive loop iterations, with Go `int` arithmetic. -/
def runEvents64 (st : Session) : List (Size × Event) → Outcome
  | [] => .next st
  | e :: es =>
    match processEvent64 e.1 e.2 st with
    | .next st1 => runEvents64 st1 es
    | .quit => .quit
    | .crash => .crash

/-! ## Single commands

Each lemma evaluates `processKey` on the event tcell delivers for one key: a
printable key arrives as `Key.Rune` with its rune, a control key as its own key
code with a control character (below 32) as rune. -/

theorem ctrl_rune_ne (r : Char) (hr : r.toNat < 32) (c : Char) (hc : 32 ≤ c.toNat) : r ≠ c := by
  intro h
  subst h
  omega

theorem ctrl_rune_toLower (r : Char) (hr : r.toNat < 32) : r.toLower = r := by
  unfold Char.toLower
  have h1 : ¬ (r.toNat ≥ 65 ∧ r.toNat ≤ 90) := by omega
  simp only [h1, if_false]

theorem processKey_space (sz : Size) (st : Session) :
    processKey sz ⟨.Rune, ' '⟩ st = .next (st.setY (st.buf.currentOffset.y + (sz.h - 1))) := rfl

theorem processKey_b (sz : Size) (st : Session) :
    processKey sz ⟨.Rune, 'b'⟩ st =
      .next (st.setY (if st.buf.currentOffset.y - (sz.h - 1) < 0 then 0
        else st.buf.currentOffset.y - (sz.h - 1))) := rfl

theorem processKey_j (sz : Size) (st : Session) :
    processKey sz ⟨.Rune, 'j'⟩ st =
      .next (st.setY (if st.buf.currentOffset.y + 1 + sz.h ≥ (st.buf.lines.length : Int)
        then (st.buf.lines.length : Int) - sz.h else st.buf.currentOffset.y + 1)) := rfl

theorem processKey_k (sz : Size) (st : Session) :
    processKey sz ⟨.Rune, 'k'⟩ st =
      .next (st.setY (if st.buf.currentOffset.y - 1 < 0 then 0
        else st.buf.currentOffset.y - 1)) := rfl

theorem processKey_J (sz : Size) (st : Session) :
    processKey sz ⟨.Rune, 'J'⟩ st =
      .next (st.setY (if st.buf.currentOffset.y + Int.tdiv sz.h 2 + sz.h
          ≥ (st.buf.lines.length : Int)
        then (st.buf.lines.length : Int) - sz.h
        else st.buf.currentOffset.y + Int.tdiv sz.h 2)) := rfl

theorem processKey_K (sz : Size) (st : Session) :
    processKey sz ⟨.Rune, 'K'⟩ st =
      .next (st.setY (if st.buf.currentOffset.y - Int.tdiv sz.h 2 < 0 then 0
        else st.buf.currentOffset.y - Int.tdiv sz.h 2)) := rfl

theorem processKey_ctrlD (sz : Size) (st : Session) (r : Char) (hr : r.toNat < 32) :
    processKey sz ⟨.CtrlD, r⟩ st =
      .next (st.setY (if st.buf.currentOffset.y + Int.tdiv sz.h 2 + sz.h
          ≥ (st.buf.lines.length : Int)
        then (st.buf.lines.length : Int) - sz.h
        else st.buf.currentOffset.y + Int.tdiv sz.h 2)) := by
  have hq : r ≠ 'q' := ctrl_rune_ne r hr _ (by decide)
  have h1 : r ≠ ' ' := ctrl_rune_ne r hr _ (by decide)
  have h2 : r ≠ 'b' := ctrl_rune_ne r hr _ (by decide)
  have h3 : r ≠ 'j' := ctrl_rune_ne r hr _ (by decide)
  have h4 : r ≠ 'k' := ctrl_rune_ne r hr _ (by decide)
  have h5 : r ≠ 'J' := ctrl_rune_ne r hr _ (by decide)
  simp [processKey, isExitKey, ctrl_rune_toLower r hr, hq, h1, h2, h3, h4, h5]

theorem processKey_ctrlU (sz : Size) (st : Session) (r : Char) (hr : r.toNat < 32) :
    processKey sz ⟨.CtrlU, r⟩ st =
      .next (st.setY (if st.buf.currentOffset.y - Int.tdiv sz.h 2 < 0 then 0
        else st.buf.currentOffset.y - Int.tdiv sz.h 2)) := by
  have hq : r ≠ 'q' := ctrl_rune_ne r hr _ (by decide)
  have h1 : r ≠ ' ' := ctrl_rune_ne r hr _ (by decide)
  have h2 : r ≠ 'b' := ctrl_rune_ne r hr _ (by decide)
  have h3 : r ≠ 'j' := ctrl_rune_ne r hr _ (by decide)
  have h4 : r ≠ 'k' := ctrl_rune_ne r hr _ (by decide)
  have h5 : r ≠ 'J' := ctrl_rune_ne r hr _ (by decide)
  have h6 : r ≠ 'K' := ctrl_rune_ne r hr _ (by decide)
  simp [processKey, isExitKey, ctrl_rune_toLower r hr, hq, h1, h2, h3, h4, h5, h6]

theorem processKey_h (sz : Size) (st : Session) :
    processKey sz ⟨.Rune, 'h'⟩ st =
      .next (st.setX (if st.buf.currentOffset.x + 1 > 0 then 0
        else st.buf.currentOffset.x + 1)) := rfl

theorem processKey_H (sz : Size) (st : Session) :
    processKey sz ⟨.Rune, 'H'⟩ st =
      .next (st.setX (if st.buf.currentOffset.x + Int.tdiv sz.w 2 > 0 then 0
        else st.buf.currentOffset.x + Int.tdiv sz.w 2)) := rfl

theorem processKey_g (sz : Size) (st : Session) :
    processKey sz ⟨.Rune, 'g'⟩ st = .next (st.setY 0) := rfl

theorem processKey_G (sz : Size) (st : Session) :
    processKey sz ⟨.Rune, 'G'⟩ st =
      .next (st.setY ((st.buf.lines.length : Int) - sz.h)) := rfl

theorem processKey_m (sz : Size) (st : Session) :
    processKey sz ⟨.Rune, 'm'⟩ st =
      .next (nextMark { st with marks := st.marks ++ [⟨st.buf.currentOffset, ""⟩] }) := rfl

theorem processKey_n (sz : Size) (st : Session) :
    processKey sz ⟨.Rune, 'n'⟩ st = jumpToMark (nextMark st) := rfl

theorem processKey_p (sz : Size) (st : Session) :
    processKey sz ⟨.Rune, 'p'⟩ st = jumpToMark (prevMark st) := rfl

/-! ## Vertical navigation -/

/-- C1 (the program departs from the claim).  On a five-line file shown on a
screen of height 4, one page-down (space) moves the offset to `y = 3`; the next
frame then computes the line indices 3, 4, 5, 6, the lookup of index 5 is out of
range, `renderViewPort` panics and the event loop ends in a crash. -/
theorem render_after_page_down_out_of_range :
    runEvents (Session.start fiveLines) [(⟨3, 4⟩, .key ⟨.Rune, ' '⟩)]
        = .next ((Session.start fiveLines).setY 3) ∧
      renderIndices ⟨3, 4⟩ ((Session.start fiveLines).setY 3).buf = [3, 4, 5, 6] ∧
      lineAt fiveLines 5 = none ∧
      renderViewPort ⟨3, 4⟩ ⟨0⟩ ((Session.start fiveLines).setY 3).buf = none ∧
      eventLoop ⟨0⟩ (Session.start fiveLines)
          [⟨⟨3, 4⟩, .key ⟨.Rune, ' '⟩, ⟨3, 4⟩⟩, ⟨⟨3, 4⟩, .resize, ⟨3, 4⟩⟩] = .crash := by
  refine ⟨?_, ?_, ?_, ?_, ?_⟩ <;> decide

/-- C2 (the program departs from the claim).  On a five-line file with screen
height 3, starting from `y = 0`, two page-downs give `y = 4`, so that
`y + h = 7` exceeds `max(h, N) = 5`: page-down adds `h - 1` without clamping. -/
theorem page_down_twice_exceeds_bound :
    runEvents (Session.start fiveLines)
        [(⟨3, 3⟩, .key ⟨.Rune, ' '⟩), (⟨3, 3⟩, .key ⟨.Rune, ' '⟩)]
        = .next ((Session.start fiveLines).setY 4) ∧
      ((Session.start fiveLines).setY 4).buf.currentOffset.y = 4 ∧
      ¬ (((Session.start fiveLines).setY 4).buf.currentOffset.y + 3
          ≤ max 3 (fiveLines.length : Int)) := by
  refine ⟨?_, ?_, ?_⟩ <;> decide

/-- C4 (the program departs from the claim).  On a three-line file shown on a
screen of height 5 (`N < height`), line-down from `y = 0` sets `y = N - h = -2`
instead of leaving it at 0, outside `[0, max(0, N - h)] = [0, 0]`; the next frame
looks up line index -2 and `renderViewPort` panics. -/
theorem line_down_short_file_negative :
    processKey ⟨3, 5⟩ ⟨.Rune, 'j'⟩ (Session.start threeLines)
        = .next ((Session.start threeLines).setY (-2)) ∧
      ((Session.start threeLines).setY (-2)).buf.currentOffset.y = -2 ∧
      max 0 ((threeLines.length : Int) - 5) = 0 ∧
      renderIndices ⟨3, 5⟩ ((Session.start threeLines).setY (-2)).buf = [-2, -1, 0] ∧
      renderViewPort ⟨3, 5⟩ ⟨0⟩ ((Session.start threeLines).setY (-2)).buf = none := by
  refine ⟨?_, ?_, ?_, ?_, ?_⟩ <;> decide

/-- C6.  Go-to-bottom (`G`) sets `y = N - h` whatever the previous offset was and
leaves `x` unchanged; when `h ≤ N` the last visible row `y + h - 1` is the last
content line `N - 1` (and for `0 < h ≤ N` that is the last line index the next
frame looks up).  In particular go-to-top followed by go-to-bottom on `N = 100`
lines with `h = 20` gives `y = 80`. -/
theorem go_to_bottom_offset (sz : Size) (st : Session) :
    (∃ st1, processKey sz ⟨.Rune, 'G'⟩ st = .next st1 ∧
        st1.buf.currentOffset.y = (st.buf.lines.length : Int) - sz.h ∧
        st1.buf.currentOffset.x = st.buf.currentOffset.x ∧
        (sz.h ≤ (st.buf.lines.length : Int) →
          st1.buf.currentOffset.y + sz.h - 1 = (st.buf.lines.length : Int) - 1) ∧
        (0 < sz.h → sz.h ≤ (st.buf.lines.length : Int) →
          (renderIndices sz st1.buf).getLast? = some ((st.buf.lines.length : Int) - 1))) ∧
      (∀ sz0 : Size, st.buf.lines.length = 100 → sz.h = 20 →
        ∃ st2, runEvents st [(sz0, .key ⟨.Rune, 'g'⟩), (sz, .key ⟨.Rune, 'G'⟩)] = .next st2 ∧
          st2.buf.currentOffset.y = 80) := by
  refine ⟨⟨_, processKey_G sz st, rfl, rfl, ?_, ?_⟩, ?_⟩
  · intro _
    simp only [Session.setY]
    omega
  · intro h0 hN
    have hh : renderHeight sz (st.setY ((st.buf.lines.length : Int) - sz.h)).buf = sz.h := by
      simp only [renderHeight, Session.setY]
      rw [if_neg (by omega)]
    have hne : sz.h.toNat ≠ 0 := by omega
    have hidx : renderIndices sz (st.setY ((st.buf.lines.length : Int) - sz.h)).buf
        = (List.range sz.h.toNat).map
            (fun (y : Nat) => (st.buf.lines.length : Int) - sz.h + (y : Int)) := by
      simp only [renderIndices, renderRows, hh]
      rfl
    rw [hidx, List.getLast?_map, List.getLast?_range, if_neg hne, Option.map_some']
    congr 1
    omega
  · intro sz0 hN hh
    refine ⟨(st.setY 0).setY (((st.setY 0).buf.lines.length : Int) - sz.h), rfl, ?_⟩
    simp only [Session.setY, hN, hh]
    decide

/-- Instance of C6: `g` then `G` on 100 lines with `h = 20` gives `y = 80`. -/
theorem go_to_bottom_offset_witness :
    ∃ st2, runEvents (Session.start (List.replicate 100 "line"))
        [(⟨80, 20⟩, .key ⟨.Rune, 'g'⟩), (⟨80, 20⟩, .key ⟨.Rune, 'G'⟩)] = .next st2 ∧
      st2.buf.currentOffset.y = 80 :=
  (go_to_bottom_offset ⟨80, 20⟩ (Session.start (List.replicate 100 "line"))).2 ⟨80, 20⟩
    (by simp [Session.start]) rfl

/-- C7.  Empty file: when the buffer has no lines, for every offset and every
screen size `renderViewPort` visits no row, looks up no line and returns
normally with no cell written; and with `h ≥ 0` go-to-bottom (`G`) yields
`y = -h`, which is not positive. -/
theorem empty_file_render_and_bottom (sz : Size) (style : Style) (st : Session)
    (hN : st.buf.lines = []) (hh : 0 ≤ sz.h) :
    renderRows sz st.buf = [] ∧ renderIndices sz st.buf = [] ∧
      renderViewPort sz style st.buf = some [] ∧
      ∃ st1, processKey sz ⟨.Rune, 'G'⟩ st = .next st1 ∧
        st1.buf.currentOffset.y = -sz.h ∧ st1.buf.currentOffset.y ≤ 0 := by
  have hrows : renderRows sz st.buf = [] := by
    have h0 : (renderHeight sz st.buf).toNat = 0 := by
      simp only [renderHeight, hN, List.length_nil, Nat.cast_zero]
      split <;> omega
    simp only [renderRows, h0, List.range_zero]
  refine ⟨hrows, ?_, ?_, _, processKey_G sz st, ?_, ?_⟩
  · simp only [renderIndices, hrows, List.map_nil]
  · simp only [renderViewPort, hrows, renderLoop]
  · simp only [Session.setY, hN, List.length_nil, Nat.cast_zero]
    omega
  · simp only [Session.setY, hN, List.length_nil, Nat.cast_zero]
    omega

/-- Instance of C7: an empty file on an 80 x 24 screen, offset `(0, 7)`. -/
theorem empty_file_render_and_bottom_witness :
    renderViewPort ⟨80, 24⟩ ⟨0⟩ ((Session.start []).setY 7).buf = some [] ∧
      ∃ st1, processKey ⟨80, 24⟩ ⟨.Rune, 'G'⟩ ((Session.start []).setY 7) = .next st1 ∧
        st1.buf.currentOffset.y = -24 ∧ st1.buf.currentOffset.y ≤ 0 :=
  have h := empty_file_render_and_bottom ⟨80, 24⟩ ⟨0⟩ ((Session.start []).setY 7) rfl
    (by decide)
  ⟨h.2.2.1, h.2.2.2⟩


/-! ## Case analysis of the event handler -/

theorem nextMark_buf (st : Session) : (nextMark st).buf = st.buf := by
  simp only [nextMark]
  split_ifs <;> rfl

theorem nextMark_marks (st : Session) : (nextMark st).marks = st.marks := by
  simp only [nextMark]
  split_ifs <;> rfl

theorem prevMark_buf (st : Session) : (prevMark st).buf = st.buf := by
  simp only [prevMark]
  split_ifs <;> rfl

theorem prevMark_marks (st : Session) : (prevMark st).marks = st.marks := by
  simp only [prevMark]
  split_ifs <;> rfl

theorem markAt_mem {marks : List Mark} {i : Int} {m : Mark} (h : markAt marks i = some m) :
    m ∈ marks := by
  unfold markAt at h
  split_ifs at h
  exact List.getElem?_mem h

theorem markAt_isSome {marks : List Mark} {i : Int} (h0 : 0 ≤ i) (h1 : i < (marks.length : Int)) :
    ∃ m, markAt marks i = some m := by
  unfold markAt
  rw [if_pos h0]
  have h2 : i.toNat < marks.length := by omega
  exact ⟨marks[i.toNat], List.getElem?_eq_getElem h2⟩

theorem jumpToMark_next {st st1 : Session} (h : jumpToMark st = .next st1) :
    st1.marks = st.marks ∧ st1.currentMark = st.currentMark ∧ st1.buf.lines = st.buf.lines ∧
      (st1.buf.currentOffset = st.buf.currentOffset ∨
        ∃ m ∈ st.marks, st1.buf.currentOffset = m.coords) := by
  unfold jumpToMark at h
  split_ifs at h
  · injection h with h
    subst h
    exact ⟨rfl, rfl, rfl, Or.inl rfl⟩
  · split at h
    · exact absurd h (by simp)
    · rename_i m hm
      injection h with h
      subst h
      exact ⟨rfl, rfl, rfl, Or.inr ⟨m, markAt_mem hm, rfl⟩⟩

theorem ite_elim {α : Type} (P : α → Prop) {c : Prop} [Decidable c] {a b : α}
    (ha : P a) (hb : P b) : P (if c then a else b) := by
  split
  · exact ha
  · exact hb

theorem processKey_cases (P : Outcome → Prop) (sz : Size) (ev : EventKey) (st : Session)
    (hquit : P .quit) (hsame : P (.next st))
    (hspace : P (.next (st.setY (st.buf.currentOffset.y + (sz.h - 1)))))
    (hb : P (.next (st.setY (if st.buf.currentOffset.y - (sz.h - 1) < 0 then 0
      else st.buf.currentOffset.y - (sz.h - 1)))))
    (hj : P (.next (st.setY (if st.buf.currentOffset.y + 1 + sz.h ≥ (st.buf.lines.length : Int)
      then (st.buf.lines.length : Int) - sz.h else st.buf.currentOffset.y + 1))))
    (hk : P (.next (st.setY (if st.buf.currentOffset.y - 1 < 0 then 0
      else st.buf.currentOffset.y - 1))))
    (hJ : P (.next (st.setY (if st.buf.currentOffset.y + Int.tdiv sz.h 2 + sz.h
        ≥ (st.buf.lines.length : Int)
      then (st.buf.lines.length : Int) - sz.h
      else st.buf.currentOffset.y + Int.tdiv sz.h 2))))
    (hK : P (.next (st.setY (if st.buf.currentOffset.y - Int.tdiv sz.h 2 < 0 then 0
      else st.buf.currentOffset.y - Int.tdiv sz.h 2))))
    (hh : P (.next (st.setX (if st.buf.currentOffset.x + 1 > 0 then 0
      else st.buf.currentOffset.x + 1))))
    (hl : P (.next (st.setX (st.buf.currentOffset.x - 1))))
    (hH : P (.next (st.setX (if st.buf.currentOffset.x + Int.tdiv sz.w 2 > 0 then 0
      else st.buf.currentOffset.x + Int.tdiv sz.w 2))))
    (hL : P (.next (st.setX (st.buf.currentOffset.x - Int.tdiv sz.w 2))))
    (h0 : P (.next (st.setX 0)))
    (hg : P (.next (st.setY 0)))
    (hG : P (.next (st.setY ((st.buf.lines.length : Int) - sz.h))))
    (hm : P (.next (nextMark { st with marks := st.marks ++ [⟨st.buf.currentOffset, ""⟩] })))
    (hn : P (jumpToMark (nextMark st))) (hp : P (jumpToMark (prevMark st))) :
    P (processKey sz ev st) := by
  unfold processKey
  dsimp only
  exact ite_elim P hquit (ite_elim P hsame (ite_elim P hspace (ite_elim P hb
    (ite_elim P hj (ite_elim P hk (ite_elim P hJ (ite_elim P hJ
    (ite_elim P hK (ite_elim P hK (ite_elim P hh (ite_elim P hl
    (ite_elim P hH (ite_elim P hL (ite_elim P h0 (ite_elim P hg
    (ite_elim P hG (ite_elim P hm (ite_elim P hn (ite_elim P hp hsame)))))))))))))))))))

theorem processEvent_cases (P : Outcome → Prop) (sz : Size) (ev : Event) (st : Session)
    (hsame : P (.next st)) (hkey : ∀ k, P (processKey sz k st)) :
    P (processEvent sz ev st) := by
  cases ev with
  | resize => exact hsame
  | key k => exact hkey k
  | other => exact hsame

/-! ## Horizontal navigation -/

theorem setX_self (st : Session) (h : st.buf.currentOffset.x = 0) : st.setX 0 = st := by
  obtain ⟨⟨⟨x, y⟩, lines⟩, marks, c⟩ := st
  simp only at h
  subst h
  rfl

/-! ## Mark ring -/

theorem nextMark_currentMark (st : Session) :
    (nextMark st).currentMark =
      if st.marks.length = 0 then st.currentMark
      else if st.currentMark + 1 ≥ (st.marks.length : Int) then 0 else st.currentMark + 1 := by
  simp only [nextMark]
  split_ifs <;> rfl

theorem prevMark_currentMark (st : Session) :
    (prevMark st).currentMark =
      if st.marks.length = 0 then st.currentMark
      else if st.currentMark - 1 < 0 then (st.marks.length : Int) - 1
      else st.currentMark - 1 := by
  simp only [prevMark]
  split_ifs <;> rfl

theorem nextMark_cursor (st : Session)
    (hc : (st.currentMark = -1 ∧ st.marks.length = 0) ∨
      (0 ≤ st.currentMark ∧ st.currentMark < (st.marks.length : Int))) :
    ((nextMark st).currentMark = -1 ∧ (nextMark st).marks.length = 0) ∨
      (0 ≤ (nextMark st).currentMark ∧
        (nextMark st).currentMark < ((nextMark st).marks.length : Int)) := by
  rw [nextMark_currentMark, nextMark_marks]
  split_ifs <;> omega

theorem prevMark_cursor (st : Session)
    (hc : (st.currentMark = -1 ∧ st.marks.length = 0) ∨
      (0 ≤ st.currentMark ∧ st.currentMark < (st.marks.length : Int))) :
    ((prevMark st).currentMark = -1 ∧ (prevMark st).marks.length = 0) ∨
      (0 ≤ (prevMark st).currentMark ∧
        (prevMark st).currentMark < ((prevMark st).marks.length : Int)) := by
  rw [prevMark_currentMark, prevMark_marks]
  split_ifs <;> omega

theorem setMark_cursor (st : Session) (m : Mark)
    (hc : (st.currentMark = -1 ∧ st.marks.length = 0) ∨
      (0 ≤ st.currentMark ∧ st.currentMark < (st.marks.length : Int))) :
    (nextMark { st with marks := st.marks ++ [m] }).currentMark = st.currentMark + 1 ∧
      0 ≤ (nextMark { st with marks := st.marks ++ [m] }).currentMark ∧
      (nextMark { st with marks := st.marks ++ [m] }).currentMark
        < ((nextMark { st with marks := st.marks ++ [m] }).marks.length : Int) := by
  rw [nextMark_currentMark, nextMark_marks]
  simp only [List.length_append, List.length_singleton, Nat.cast_add, Nat.cast_one]
  split_ifs
  all_goals first
    | contradiction
    | omega

theorem jumpToMark_cursor (st : Session)
    (hc : (st.currentMark = -1 ∧ st.marks.length = 0) ∨
      (0 ≤ st.currentMark ∧ st.currentMark < (st.marks.length : Int))) :
    jumpToMark st ≠ .crash ∧
      ∀ st1, jumpToMark st = .next st1 →
        (st1.currentMark = -1 ∧ st1.marks.length = 0) ∨
          (0 ≤ st1.currentMark ∧ st1.currentMark < (st1.marks.length : Int)) := by
  constructor
  · unfold jumpToMark
    split_ifs with h
    · simp
    · have h0 : 0 ≤ st.currentMark := by omega
      have h1 : st.currentMark < (st.marks.length : Int) := by omega
      obtain ⟨m, hm⟩ := markAt_isSome h0 h1
      rw [hm]
      simp
  · intro st1 h
    obtain ⟨h1, h2, _, _⟩ := jumpToMark_next h
    rw [h1, h2]
    exact hc

theorem processKey_cursor (sz : Size) (ev : EventKey) (st : Session)
    (hc : (st.currentMark = -1 ∧ st.marks.length = 0) ∨
      (0 ≤ st.currentMark ∧ st.currentMark < (st.marks.length : Int))) :
    processKey sz ev st ≠ .crash ∧
      ∀ st1, processKey sz ev st = .next st1 →
        (st1.currentMark = -1 ∧ st1.marks.length = 0) ∨
          (0 ≤ st1.currentMark ∧ st1.currentMark < (st1.marks.length : Int)) := by
  have hset : ∀ st0 : Session, st0.currentMark = st.currentMark → st0.marks = st.marks →
      Outcome.next st0 ≠ .crash ∧
        ∀ st1, Outcome.next st0 = .next st1 →
          (st1.currentMark = -1 ∧ st1.marks.length = 0) ∨
            (0 ≤ st1.currentMark ∧ st1.currentMark < (st1.marks.length : Int)) := by
    intro st0 h1 h2
    refine ⟨by simp, ?_⟩
    intro st1 h
    injection h with h
    subst h
    rw [h1, h2]
    exact hc
  refine processKey_cases
    (fun o => o ≠ .crash ∧ ∀ st1, o = .next st1 →
      (st1.currentMark = -1 ∧ st1.marks.length = 0) ∨
        (0 ≤ st1.currentMark ∧ st1.currentMark < (st1.marks.length : Int))) sz ev st
    ?_ ?_ ?_ ?_ ?_ ?_ ?_ ?_ ?_ ?_ ?_ ?_ ?_ ?_ ?_ ?_ ?_ ?_
  · exact ⟨by simp, fun st1 h => absurd h (by simp)⟩
  · exact hset st rfl rfl
  · exact hset _ rfl rfl
  · exact hset _ rfl rfl
  · exact hset _ rfl rfl
  · exact hset _ rfl rfl
  · exact hset _ rfl rfl
  · exact hset _ rfl rfl
  · exact hset _ rfl rfl
  · exact hset _ rfl rfl
  · exact hset _ rfl rfl
  · exact hset _ rfl rfl
  · exact hset _ rfl rfl
  · exact hset _ rfl rfl
  · exact hset _ rfl rfl
  · refine ⟨by simp, ?_⟩
    intro st1 h
    injection h with h
    subst h
    exact Or.inr (setMark_cursor st _ hc).2
  · exact jumpToMark_cursor _ (nextMark_cursor st hc)
  · exact jumpToMark_cursor _ (prevMark_cursor st hc)

theorem runEvents_cursor (evs : List (Size × Event)) :
    ∀ st : Session,
      ((st.currentMark = -1 ∧ st.marks.length = 0) ∨
        (0 ≤ st.currentMark ∧ st.currentMark < (st.marks.length : Int))) →
      runEvents st evs ≠ .crash ∧
        ∀ st1, runEvents st evs = .next st1 →
          (st1.currentMark = -1 ∧ st1.marks.length = 0) ∨
            (0 ≤ st1.currentMark ∧ st1.currentMark < (st1.marks.length : Int)) := by
  induction evs with
  | nil =>
    intro st hc
    refine ⟨by simp [runEvents], ?_⟩
    intro st1 h
    simp only [runEvents] at h
    injection h with h
    subst h
    exact hc
  | cons e es ih =>
    intro st hc
    have hstep : processEvent e.1 e.2 st ≠ .crash ∧
        ∀ st1, processEvent e.1 e.2 st = .next st1 →
          (st1.currentMark = -1 ∧ st1.marks.length = 0) ∨
            (0 ≤ st1.currentMark ∧ st1.currentMark < (st1.marks.length : Int)) := by
      refine processEvent_cases
        (fun o => o ≠ .crash ∧ ∀ st1, o = .next st1 →
          (st1.currentMark = -1 ∧ st1.marks.length = 0) ∨
            (0 ≤ st1.currentMark ∧ st1.currentMark < (st1.marks.length : Int)))
        e.1 e.2 st ?_ ?_
      · refine ⟨by simp, ?_⟩
        intro st1 h
        injection h with h
        subst h
        exact hc
      · intro k
        exact processKey_cursor e.1 k st hc
    simp only [runEvents]
    cases hp : processEvent e.1 e.2 st with
    | next st2 => exact ih st2 (hstep.2 st2 hp)
    | quit => exact ⟨by simp, fun st1 h => absurd h (by simp)⟩
    | crash => exact absurd hp hstep.1

/-- C9.  Mark-ring cursor invariant: no sequence of events from the initial state
panics, and in every state it reaches `currentMark` is -1 exactly when the ring
is empty and otherwise satisfies `0 ≤ currentMark < len(marks)`; consequently,
on a non-empty ring the lookups `marks[currentMark]` made by next-mark-and-jump
(`n`) and previous-mark-and-jump (`p`) are in bounds, and no key panics. -/
theorem mark_cursor_in_range (lines : List String) (evs : List (Size × Event)) :
    runEvents (Session.start lines) evs ≠ .crash ∧
      ∀ st, runEvents (Session.start lines) evs = .next st →
        (st.currentMark = -1 ↔ st.marks = []) ∧
        (st.marks ≠ [] → 0 ≤ st.currentMark ∧ st.currentMark < (st.marks.length : Int)) ∧
        (st.marks ≠ [] →
          (∃ m, markAt (nextMark st).marks (nextMark st).currentMark = some m) ∧
          (∃ m, markAt (prevMark st).marks (prevMark st).currentMark = some m)) ∧
        (∀ sz k, processKey sz k st ≠ .crash) := by
  have h0 : ((Session.start lines).currentMark = -1 ∧ (Session.start lines).marks.length = 0) ∨
      (0 ≤ (Session.start lines).currentMark ∧
        (Session.start lines).currentMark < ((Session.start lines).marks.length : Int)) :=
    Or.inl ⟨rfl, rfl⟩
  obtain ⟨hnc, hinv⟩ := runEvents_cursor evs (Session.start lines) h0
  refine ⟨hnc, ?_⟩
  intro st hst
  have hc := hinv st hst
  have hlen : st.marks = [] ↔ st.marks.length = 0 := List.length_eq_zero.symm
  refine ⟨?_, ?_, ?_, fun sz k => (processKey_cursor sz k st hc).1⟩
  · rw [hlen]
    omega
  · intro hne
    have : st.marks.length ≠ 0 := fun h => hne (hlen.2 h)
    omega
  · intro hne
    have hpos : st.marks.length ≠ 0 := fun h => hne (hlen.2 h)
    have hn := nextMark_cursor st hc
    have hp := prevMark_cursor st hc
    rw [nextMark_marks] at hn
    rw [prevMark_marks] at hp
    constructor
    · rw [nextMark_marks]
      exact markAt_isSome (by omega) (by omega)
    · rw [prevMark_marks]
      exact markAt_isSome (by omega) (by omega)

/-- Instance of C9: two marks set, then one jump to the next mark. -/
theorem mark_cursor_in_range_witness :
    ∃ st, runEvents (Session.start fiveLines)
        [(⟨10, 4⟩, .key ⟨.Rune, 'm'⟩), (⟨10, 4⟩, .key ⟨.Rune, 'j'⟩),
          (⟨10, 4⟩, .key ⟨.Rune, 'm'⟩), (⟨10, 4⟩, .key ⟨.Rune, 'n'⟩)] = .next st ∧
      st.currentMark = 0 ∧ st.marks.length = 2 ∧
      (st.currentMark = -1 ↔ st.marks = []) :=
  ⟨{ buf := { currentOffset := ⟨0, 0⟩, lines := fiveLines },
     marks := [⟨⟨0, 0⟩, ""⟩, ⟨⟨0, 1⟩, ""⟩], currentMark := 0 },
    by decide, rfl, rfl,
    ((mark_cursor_in_range fiveLines
      [(⟨10, 4⟩, .key ⟨.Rune, 'm'⟩), (⟨10, 4⟩, .key ⟨.Rune, 'j'⟩),
        (⟨10, 4⟩, .key ⟨.Rune, 'm'⟩), (⟨10, 4⟩, .key ⟨.Rune, 'n'⟩)]).2 _ (by decide)).1⟩

/-- C10.  On an empty mark ring with cursor -1, `nextMark` and `prevMark` return
the state unchanged, however often they are applied, and any sequence of `n` and
`p` commands leaves the whole state as it was: the cursor stays -1, the ring
stays empty and the viewport offset `(x, y)` is unchanged. -/
theorem empty_ring_jump_is_noop (st : Session) (evs : List (Size × Event))
    (hm : st.marks = []) (hc : st.currentMark = -1)
    (hev : ∀ e ∈ evs, e.2 = .key ⟨.Rune, 'n'⟩ ∨ e.2 = .key ⟨.Rune, 'p'⟩) :
    nextMark st = st ∧ prevMark st = st ∧
      (∀ k : Nat, nextMark^[k] st = st ∧ prevMark^[k] st = st) ∧
      runEvents st evs = .next st ∧
      (∀ st1, runEvents st evs = .next st1 →
        st1.currentMark = -1 ∧ st1.marks = [] ∧
          st1.buf.currentOffset = st.buf.currentOffset) := by
  have hn : nextMark st = st := by
    simp only [nextMark, hm, List.length_nil, if_true]
  have hp : prevMark st = st := by
    simp only [prevMark, hm, List.length_nil, if_true]
  have hj : jumpToMark st = .next st := by
    have : st.currentMark < 0 := by omega
    simp only [jumpToMark, this, if_true]
  have hrun : runEvents st evs = .next st := by
    induction evs with
    | nil => rfl
    | cons e es ih =>
      have hstep : processEvent e.1 e.2 st = .next st := by
        rcases hev e (List.mem_cons_self e es) with h | h
        · rw [h]
          show processKey e.1 ⟨.Rune, 'n'⟩ st = .next st
          rw [processKey_n, hn, hj]
        · rw [h]
          show processKey e.1 ⟨.Rune, 'p'⟩ st = .next st
          rw [processKey_p, hp, hj]
      simp only [runEvents, hstep]
      exact ih (fun e1 he1 => hev e1 (List.mem_cons_of_mem e he1))
  refine ⟨hn, hp, fun k => ⟨Function.iterate_fixed hn k, Function.iterate_fixed hp k⟩,
    hrun, ?_⟩
  intro st1 h
  rw [hrun] at h
  injection h with h
  subst h
  exact ⟨hc, hm, rfl⟩

/-- Instance of C10: `n`, `p`, `n` on an empty ring at offset `(0, 1)`. -/
theorem empty_ring_jump_is_noop_witness :
    runEvents ((Session.start fiveLines).setY 1)
        [(⟨10, 4⟩, .key ⟨.Rune, 'n'⟩), (⟨10, 4⟩, .key ⟨.Rune, 'p'⟩),
          (⟨10, 4⟩, .key ⟨.Rune, 'n'⟩)]
      = .next ((Session.start fiveLines).setY 1) :=
  (empty_ring_jump_is_noop ((Session.start fiveLines).setY 1)
    [(⟨10, 4⟩, .key ⟨.Rune, 'n'⟩), (⟨10, 4⟩, .key ⟨.Rune, 'p'⟩),
      (⟨10, 4⟩, .key ⟨.Rune, 'n'⟩)] rfl rfl (by decide)).2.2.2.1

/-! ## Cyclic movement of the cursor -/

theorem nextMark_eq (st : Session) (hn : st.marks.length ≠ 0) :
    nextMark st = { st with currentMark :=
      if st.currentMark + 1 ≥ (st.marks.length : Int) then 0 else st.currentMark + 1 } := by
  simp only [nextMark, if_neg hn]
  split_ifs <;> rfl

theorem prevMark_eq (st : Session) (hn : st.marks.length ≠ 0) :
    prevMark st = { st with currentMark :=
      if st.currentMark - 1 < 0 then (st.marks.length : Int) - 1 else st.currentMark - 1 } := by
  simp only [prevMark, if_neg hn]
  split_ifs <;> rfl

theorem nextMark_mod (st : Session) (h0 : 0 ≤ st.currentMark)
    (h1 : st.currentMark < (st.marks.length : Int)) :
    nextMark st = { st with currentMark := (st.currentMark + 1) % (st.marks.length : Int) } := by
  have hn : st.marks.length ≠ 0 := by omega
  rw [nextMark_eq st hn]
  split_ifs with h
  · have : st.currentMark + 1 = (st.marks.length : Int) := by omega
    rw [this, Int.emod_self]
  · rw [Int.emod_eq_of_lt (by omega) (by omega)]

theorem prevMark_mod (st : Session) (h0 : 0 ≤ st.currentMark)
    (h1 : st.currentMark < (st.marks.length : Int)) :
    prevMark st = { st with currentMark :=
      (st.currentMark + (st.marks.length : Int) - 1) % (st.marks.length : Int) } := by
  have hn : st.marks.length ≠ 0 := by omega
  rw [prevMark_eq st hn]
  split_ifs with h
  · have : st.currentMark = 0 := by omega
    rw [this, Int.emod_eq_of_lt (by omega) (by omega)]
    simp only [zero_add]
  · have : st.currentMark + (st.marks.length : Int) - 1
        = (st.currentMark - 1) + (st.marks.length : Int) := by omega
    rw [this, Int.add_emod_self, Int.emod_eq_of_lt (by omega) (by omega)]

theorem jumpToMark_eq (st : Session) (m : Mark) (h0 : 0 ≤ st.currentMark)
    (hm : markAt st.marks st.currentMark = some m) :
    jumpToMark st = .next { st with buf := { st.buf with currentOffset := m.coords } } := by
  unfold jumpToMark
  rw [if_neg (by omega), hm]

theorem mod_cursor_range (c : Int) (n : Nat) (hn : n ≠ 0) :
    0 ≤ c % (n : Int) ∧ c % (n : Int) < (n : Int) :=
  ⟨Int.emod_nonneg c (by omega), Int.emod_lt_of_pos c (by omega)⟩

/-- C11.  Cyclic cursor movement: on a ring of length `n ≥ 1` with cursor `c`,
`0 ≤ c < n`, `nextMark` sets the cursor to `(c + 1) mod n` and `prevMark` sets it
to `(c + n - 1) mod n` (from the first mark `prevMark` lands on the last one,
index `n - 1`); the commands `n` and `p` then succeed, leave the ring as it was
and set the viewport offset to exactly the coordinates of the mark at the new
cursor. -/
theorem cyclic_cursor_movement (sz : Size) (st : Session) (hn : 1 ≤ st.marks.length)
    (h0 : 0 ≤ st.currentMark) (h1 : st.currentMark < (st.marks.length : Int)) :
    (nextMark st).currentMark = (st.currentMark + 1) % (st.marks.length : Int) ∧
      (prevMark st).currentMark
        = (st.currentMark + (st.marks.length : Int) - 1) % (st.marks.length : Int) ∧
      (st.currentMark = 0 → (prevMark st).currentMark = (st.marks.length : Int) - 1) ∧
      (∃ m st1, markAt st.marks ((st.currentMark + 1) % (st.marks.length : Int)) = some m ∧
        processKey sz ⟨.Rune, 'n'⟩ st = .next st1 ∧
        st1.currentMark = (st.currentMark + 1) % (st.marks.length : Int) ∧
        st1.marks = st.marks ∧ st1.buf.currentOffset = m.coords) ∧
      (∃ m st1,
        markAt st.marks ((st.currentMark + (st.marks.length : Int) - 1)
          % (st.marks.length : Int)) = some m ∧
        processKey sz ⟨.Rune, 'p'⟩ st = .next st1 ∧
        st1.currentMark
          = (st.currentMark + (st.marks.length : Int) - 1) % (st.marks.length : Int) ∧
        st1.marks = st.marks ∧ st1.buf.currentOffset = m.coords) := by
  have hne : st.marks.length ≠ 0 := by omega
  have hnext := nextMark_mod st h0 h1
  have hprev := prevMark_mod st h0 h1
  have rn := mod_cursor_range (st.currentMark + 1) st.marks.length hne
  have rp := mod_cursor_range (st.currentMark + (st.marks.length : Int) - 1)
    st.marks.length hne
  obtain ⟨mn, hmn⟩ := markAt_isSome rn.1 rn.2
  obtain ⟨mp, hmp⟩ := markAt_isSome rp.1 rp.2
  refine ⟨by rw [hnext], by rw [hprev], ?_,
    ⟨mn, { buf := { st.buf with currentOffset := mn.coords }, marks := st.marks,
           currentMark := (st.currentMark + 1) % (st.marks.length : Int) },
      hmn, ?_, rfl, rfl, rfl⟩,
    ⟨mp, { buf := { st.buf with currentOffset := mp.coords }, marks := st.marks,
           currentMark :=
             (st.currentMark + (st.marks.length : Int) - 1) % (st.marks.length : Int) },
      hmp, ?_, rfl, rfl, rfl⟩⟩
  · intro hc
    rw [hprev, hc, zero_add]
    exact Int.emod_eq_of_lt (by omega) (by omega)
  · rw [processKey_n, hnext]
    exact jumpToMark_eq _ mn rn.1 hmn
  · rw [processKey_p, hprev]
    exact jumpToMark_eq _ mp rp.1 hmp

/-- Instance of C11: two marks at `(0,0)` and `(0,1)`, cursor on the first; `p`
wraps to the last mark and restores `(0,1)`. -/
theorem cyclic_cursor_movement_witness :
    ∃ m st1, markAt [⟨⟨0, 0⟩, ""⟩, ⟨⟨0, 1⟩, ""⟩] 1 = some m ∧
      processKey ⟨10, 4⟩ ⟨.Rune, 'p'⟩
        { buf := { currentOffset := ⟨0, 3⟩, lines := fiveLines },
          marks := [⟨⟨0, 0⟩, ""⟩, ⟨⟨0, 1⟩, ""⟩], currentMark := 0 } = .next st1 ∧
      st1.currentMark = 1 ∧ st1.buf.currentOffset = m.coords ∧ m.coords = ⟨0, 1⟩ := by
  obtain ⟨m, st1, h1, h2, h3, _, h5⟩ :=
    (cyclic_cursor_movement ⟨10, 4⟩
      { buf := { currentOffset := ⟨0, 3⟩, lines := fiveLines },
        marks := [⟨⟨0, 0⟩, ""⟩, ⟨⟨0, 1⟩, ""⟩], currentMark := 0 }
      (by decide) (by decide) (by decide)).2.2.2.2
  have e : ((0 : Int) + ((2 : Nat) : Int) - 1) % ((2 : Nat) : Int) = 1 := by decide
  simp only [List.length_cons, List.length_nil] at h1 h3
  rw [e] at h1 h3
  refine ⟨m, st1, h1, h2, h3, h5, ?_⟩
  have hm : markAt [⟨⟨0, 0⟩, ""⟩, ⟨⟨0, 1⟩, ""⟩] 1 = some ⟨⟨0, 1⟩, ""⟩ := by decide
  rw [hm] at h1
  injection h1 with h1
  rw [← h1]

theorem session_eq_of_fields {a b : Session} (h1 : a.buf = b.buf) (h2 : a.marks = b.marks)
    (h3 : a.currentMark = b.currentMark) : a = b := by
  cases a
  cases b
  simp only at h1 h2 h3
  subst h1 h2 h3
  rfl

theorem nextMark_iterate (st : Session) (h0 : 0 ≤ st.currentMark)
    (h1 : st.currentMark < (st.marks.length : Int)) (j : Nat) :
    (nextMark^[j] st).buf = st.buf ∧ (nextMark^[j] st).marks = st.marks ∧
      (nextMark^[j] st).currentMark = (st.currentMark + (j : Int)) % (st.marks.length : Int) := by
  have hne : st.marks.length ≠ 0 := by omega
  induction j with
  | zero =>
    refine ⟨rfl, rfl, ?_⟩
    simp only [Function.iterate_zero, id_eq, Nat.cast_zero, add_zero]
    exact (Int.emod_eq_of_lt h0 h1).symm
  | succ j ih =>
    obtain ⟨ib, im, ic⟩ := ih
    have r := mod_cursor_range (st.currentMark + (j : Int)) st.marks.length hne
    rw [Function.iterate_succ_apply']
    have hmod := nextMark_mod (nextMark^[j] st) (by rw [ic]; exact r.1)
      (by rw [ic, im]; exact r.2)
    rw [hmod]
    refine ⟨ib, im, ?_⟩
    show ((nextMark^[j] st).currentMark + 1) % ((nextMark^[j] st).marks.length : Int) = _
    rw [ic, im, Int.emod_add_emod]
    congr 1
    push_cast
    omega

theorem prevMark_iterate (st : Session) (h0 : 0 ≤ st.currentMark)
    (h1 : st.currentMark < (st.marks.length : Int)) (j : Nat) :
    (prevMark^[j] st).buf = st.buf ∧ (prevMark^[j] st).marks = st.marks ∧
      (prevMark^[j] st).currentMark = (st.currentMark - (j : Int)) % (st.marks.length : Int) := by
  have hne : st.marks.length ≠ 0 := by omega
  induction j with
  | zero =>
    refine ⟨rfl, rfl, ?_⟩
    simp only [Function.iterate_zero, id_eq, Nat.cast_zero, sub_zero]
    exact (Int.emod_eq_of_lt h0 h1).symm
  | succ j ih =>
    obtain ⟨ib, im, ic⟩ := ih
    have r := mod_cursor_range (st.currentMark - (j : Int)) st.marks.length hne
    rw [Function.iterate_succ_apply']
    have hmod := prevMark_mod (prevMark^[j] st) (by rw [ic]; exact r.1)
      (by rw [ic, im]; exact r.2)
    rw [hmod]
    refine ⟨ib, im, ?_⟩
    show ((prevMark^[j] st).currentMark + ((prevMark^[j] st).marks.length : Int) - 1)
      % ((prevMark^[j] st).marks.length : Int) = _
    rw [ic, im]
    have e1 : (st.currentMark - (j : Int)) % (st.marks.length : Int) + (st.marks.length : Int) - 1
        = (st.currentMark - (j : Int)) % (st.marks.length : Int)
          + ((st.marks.length : Int) - 1) := by omega
    have e2 : st.currentMark - (j : Int) + ((st.marks.length : Int) - 1)
        = (st.currentMark - ((j + 1 : Nat) : Int)) + (st.marks.length : Int) := by
      push_cast
      omega
    rw [e1, Int.emod_add_emod, e2, Int.add_emod_self]

/-- C20.  On a ring of length `n ≥ 1` with cursor `c`, `0 ≤ c < n`, `nextMark`
and `prevMark` are inverse to each other, `prevMark (nextMark st) = st` and
`nextMark (prevMark st) = st`, and applying either of them `n` times returns the
state, hence the cursor, to where it was. -/
theorem next_prev_inverse_periodic (st : Session) (hn : 1 ≤ st.marks.length)
    (h0 : 0 ≤ st.currentMark) (h1 : st.currentMark < (st.marks.length : Int)) :
    prevMark (nextMark st) = st ∧ nextMark (prevMark st) = st ∧
      nextMark^[st.marks.length] st = st ∧ prevMark^[st.marks.length] st = st := by
  refine ⟨?_, ?_, ?_, ?_⟩
  · refine session_eq_of_fields (by rw [prevMark_buf, nextMark_buf])
      (by rw [prevMark_marks, nextMark_marks]) ?_
    rw [prevMark_currentMark, nextMark_marks, nextMark_currentMark]
    split_ifs <;> omega
  · refine session_eq_of_fields (by rw [nextMark_buf, prevMark_buf])
      (by rw [nextMark_marks, prevMark_marks]) ?_
    rw [nextMark_currentMark, prevMark_marks, prevMark_currentMark]
    split_ifs <;> omega
  · obtain ⟨hb, hm, hc⟩ := nextMark_iterate st h0 h1 st.marks.length
    refine session_eq_of_fields hb hm ?_
    rw [hc, Int.add_emod_self]
    exact Int.emod_eq_of_lt h0 h1
  · obtain ⟨hb, hm, hc⟩ := prevMark_iterate st h0 h1 st.marks.length
    refine session_eq_of_fields hb hm ?_
    have e : st.currentMark - (st.marks.length : Int)
        = st.currentMark + (-1) * (st.marks.length : Int) := by omega
    rw [hc, e, Int.add_mul_emod_self]
    exact Int.emod_eq_of_lt h0 h1

/-- Instance of C20: three marks, cursor on the second. -/
theorem next_prev_inverse_periodic_witness :
    nextMark^[3]
        ({ buf := { currentOffset := ⟨0, 0⟩, lines := fiveLines },
           marks := [⟨⟨0, 0⟩, ""⟩, ⟨⟨0, 1⟩, ""⟩, ⟨⟨0, 2⟩, ""⟩], currentMark := 1 } : Session)
      = { buf := { currentOffset := ⟨0, 0⟩, lines := fiveLines },
          marks := [⟨⟨0, 0⟩, ""⟩, ⟨⟨0, 1⟩, ""⟩, ⟨⟨0, 2⟩, ""⟩], currentMark := 1 } :=
  (next_prev_inverse_periodic
    { buf := { currentOffset := ⟨0, 0⟩, lines := fiveLines },
      marks := [⟨⟨0, 0⟩, ""⟩, ⟨⟨0, 1⟩, ""⟩, ⟨⟨0, 2⟩, ""⟩], currentMark := 1 }
    (by decide) (by decide) (by decide)).2.2.1

/-- C19.  In every state reachable from the initial one, set-mark (`m`) appends
the mark and changes the cursor from `c` to exactly `c + 1`: the wrap test of
`nextMark` is never met, so the cursor is not reset to 0.  Hence the cursor is on
the newly appended mark (index `len(marks)` before the command) if and only if
the ring was empty or the cursor was on the last mark. -/
theorem set_mark_advances_cursor (lines : List String) (evs : List (Size × Event))
    (sz : Size) (st : Session) (hst : runEvents (Session.start lines) evs = .next st) :
    ∃ st1, processKey sz ⟨.Rune, 'm'⟩ st = .next st1 ∧
      st1.marks = st.marks ++ [⟨st.buf.currentOffset, ""⟩] ∧
      st1.currentMark = st.currentMark + 1 ∧
      ¬ (st.currentMark + 1 ≥ (st1.marks.length : Int)) ∧
      (st1.currentMark = (st.marks.length : Int) ↔
        (st.marks = [] ∨ st.currentMark = (st.marks.length : Int) - 1)) := by
  have h0 : ((Session.start lines).currentMark = -1 ∧ (Session.start lines).marks.length = 0) ∨
      (0 ≤ (Session.start lines).currentMark ∧
        (Session.start lines).currentMark < ((Session.start lines).marks.length : Int)) :=
    Or.inl ⟨rfl, rfl⟩
  have hc := (runEvents_cursor evs (Session.start lines) h0).2 st hst
  obtain ⟨c1, _, c3⟩ := setMark_cursor st ⟨st.buf.currentOffset, ""⟩ hc
  rw [nextMark_marks] at c3
  have hlen : st.marks = [] ↔ st.marks.length = 0 := List.length_eq_zero.symm
  refine ⟨_, processKey_m sz st, nextMark_marks _, c1, ?_, ?_⟩
  · rw [nextMark_marks]
    rw [c1] at c3
    omega
  · rw [c1, hlen]
    omega

/-- Instance of C19: after `m`, `m`, `p` the cursor is on the first of two marks;
a third `m` moves it to index 1, not to the new mark at index 2. -/
theorem set_mark_advances_cursor_witness :
    ∃ st1, processKey ⟨10, 4⟩ ⟨.Rune, 'm'⟩
        { buf := { currentOffset := ⟨0, 0⟩, lines := fiveLines },
          marks := [⟨⟨0, 0⟩, ""⟩, ⟨⟨0, 0⟩, ""⟩], currentMark := 0 } = .next st1 ∧
      st1.currentMark = 1 ∧ st1.marks.length = 3 := by
  obtain ⟨st1, h1, h2, h3, _, _⟩ :=
    set_mark_advances_cursor fiveLines
      [(⟨10, 4⟩, .key ⟨.Rune, 'm'⟩), (⟨10, 4⟩, .key ⟨.Rune, 'm'⟩),
        (⟨10, 4⟩, .key ⟨.Rune, 'p'⟩)] ⟨10, 4⟩
      { buf := { currentOffset := ⟨0, 0⟩, lines := fiveLines },
        marks := [⟨⟨0, 0⟩, ""⟩, ⟨⟨0, 0⟩, ""⟩], currentMark := 0 } (by decide)
  exact ⟨st1, h1, by rw [h3]; decide, by rw [h2]; decide⟩

/-! ## The ring only grows -/

theorem ite_elim_pos {α : Type} (P : α → Prop) {c : Prop} [Decidable c] {a b : α}
    (ha : c → P a) (hb : P b) : P (if c then a else b) := by
  split
  · rename_i h
    exact ha h
  · exact hb

/-- Case analysis of `processKey` in which every branch knows the test that
selected it. -/
theorem processKey_cases_guarded (P : Outcome → Prop) (sz : Size) (ev : EventKey)
    (st : Session)
    (hquit : isExitKey ev = true → P .quit) (hsame : P (.next st))
    (hspace : ev.rune = ' ' → P (.next (st.setY (st.buf.currentOffset.y + (sz.h - 1)))))
    (hb : ev.rune = 'b' →
      P (.next (st.setY (if st.buf.currentOffset.y - (sz.h - 1) < 0 then 0
        else st.buf.currentOffset.y - (sz.h - 1)))))
    (hj : ev.rune = 'j' →
      P (.next (st.setY (if st.buf.currentOffset.y + 1 + sz.h ≥ (st.buf.lines.length : Int)
        then (st.buf.lines.length : Int) - sz.h else st.buf.currentOffset.y + 1))))
    (hk : ev.rune = 'k' →
      P (.next (st.setY (if st.buf.currentOffset.y - 1 < 0 then 0
        else st.buf.currentOffset.y - 1))))
    (hJ : ev.rune = 'J' ∨ ev.key = .CtrlD →
      P (.next (st.setY (if st.buf.currentOffset.y + Int.tdiv sz.h 2 + sz.h
          ≥ (st.buf.lines.length : Int)
        then (st.buf.lines.length : Int) - sz.h
        else st.buf.currentOffset.y + Int.tdiv sz.h 2))))
    (hK : ev.rune = 'K' ∨ ev.key = .CtrlU →
      P (.next (st.setY (if st.buf.currentOffset.y - Int.tdiv sz.h 2 < 0 then 0
        else st.buf.currentOffset.y - Int.tdiv sz.h 2))))
    (hh : ev.rune = 'h' →
      P (.next (st.setX (if st.buf.currentOffset.x + 1 > 0 then 0
        else st.buf.currentOffset.x + 1))))
    (hl : ev.rune = 'l' → P (.next (st.setX (st.buf.currentOffset.x - 1))))
    (hH : ev.rune = 'H' →
      P (.next (st.setX (if st.buf.currentOffset.x + Int.tdiv sz.w 2 > 0 then 0
        else st.buf.currentOffset.x + Int.tdiv sz.w 2))))
    (hL : ev.rune = 'L' → P (.next (st.setX (st.buf.currentOffset.x - Int.tdiv sz.w 2))))
    (h0 : ev.rune = '0' → P (.next (st.setX 0)))
    (hg : ev.rune = 'g' → P (.next (st.setY 0)))
    (hG : ev.rune = 'G' → P (.next (st.setY ((st.buf.lines.length : Int) - sz.h))))
    (hm : ev.rune = 'm' →
      P (.next (nextMark { st with marks := st.marks ++ [⟨st.buf.currentOffset, ""⟩] })))
    (hn : ev.rune = 'n' → P (jumpToMark (nextMark st)))
    (hp : ev.rune = 'p' → P (jumpToMark (prevMark st))) :
    P (processKey sz ev st) := by
  unfold processKey
  dsimp only
  exact ite_elim_pos P hquit (ite_elim P hsame (ite_elim_pos P hspace (ite_elim_pos P hb
    (ite_elim_pos P hj (ite_elim_pos P hk (ite_elim_pos P (fun h => hJ (Or.inl h))
    (ite_elim_pos P (fun h => hJ (Or.inr h))
    (ite_elim_pos P (fun h => hK (Or.inl h)) (ite_elim_pos P (fun h => hK (Or.inr h))
    (ite_elim_pos P hh (ite_elim_pos P hl
    (ite_elim_pos P hH (ite_elim_pos P hL (ite_elim_pos P h0 (ite_elim_pos P hg
    (ite_elim_pos P hG (ite_elim_pos P hm (ite_elim_pos P hn
    (ite_elim_pos P hp hsame)))))))))))))))))))

theorem processKey_marks (sz : Size) (ev : EventKey) (st : Session) :
    ∀ st1, processKey sz ev st = .next st1 →
      st1.marks = st.marks ∨
        (ev.rune = 'm' ∧ st1.marks = st.marks ++ [⟨st.buf.currentOffset, ""⟩]) := by
  have hset : ∀ st0 : Session, st0.marks = st.marks →
      ∀ st1, Outcome.next st0 = .next st1 →
        st1.marks = st.marks ∨
          (ev.rune = 'm' ∧ st1.marks = st.marks ++ [⟨st.buf.currentOffset, ""⟩]) := by
    intro st0 h0 st1 h
    injection h with h
    subst h
    exact Or.inl h0
  have hjump : ∀ st0 : Session, st0.marks = st.marks →
      ∀ st1, jumpToMark st0 = .next st1 →
        st1.marks = st.marks ∨
          (ev.rune = 'm' ∧ st1.marks = st.marks ++ [⟨st.buf.currentOffset, ""⟩]) := by
    intro st0 h0 st1 h
    exact Or.inl ((jumpToMark_next h).1.trans h0)
  refine processKey_cases_guarded
    (fun o => ∀ st1, o = .next st1 →
      st1.marks = st.marks ∨
        (ev.rune = 'm' ∧ st1.marks = st.marks ++ [⟨st.buf.currentOffset, ""⟩])) sz ev st
    ?_ ?_ ?_ ?_ ?_ ?_ ?_ ?_ ?_ ?_ ?_ ?_ ?_ ?_ ?_ ?_ ?_ ?_
  · intro _ st1 h; exact absurd h (by simp)
  · exact hset st rfl
  · intro _; exact hset _ rfl
  · intro _; exact hset _ rfl
  · intro _; exact hset _ rfl
  · intro _; exact hset _ rfl
  · intro _; exact hset _ rfl
  · intro _; exact hset _ rfl
  · intro _; exact hset _ rfl
  · intro _; exact hset _ rfl
  · intro _; exact hset _ rfl
  · intro _; exact hset _ rfl
  · intro _; exact hset _ rfl
  · intro _; exact hset _ rfl
  · intro _; exact hset _ rfl
  · intro hm st1 h
    injection h with h
    subst h
    exact Or.inr ⟨hm, nextMark_marks _⟩
  · intro _; exact hjump _ (nextMark_marks st)
  · intro _; exact hjump _ (prevMark_marks st)

theorem processEvent_marks (sz : Size) (ev : Event) (st : Session) :
    ∀ st1, processEvent sz ev st = .next st1 →
      st1.marks = st.marks ∨ st1.marks = st.marks ++ [⟨st.buf.currentOffset, ""⟩] := by
  cases ev with
  | resize =>
    intro st1 h
    injection h with h
    subst h
    exact Or.inl rfl
  | key k =>
    intro st1 h
    rcases processKey_marks sz k st st1 h with h1 | ⟨_, h1⟩
    · exact Or.inl h1
    · exact Or.inr h1
  | other =>
    intro st1 h
    injection h with h
    subst h
    exact Or.inl rfl

theorem runEvents_marks_prefix (evs : List (Size × Event)) :
    ∀ st st1 : Session, runEvents st evs = .next st1 → st.marks <+: st1.marks := by
  induction evs with
  | nil =>
    intro st st1 h
    simp only [runEvents] at h
    injection h with h
    subst h
    exact List.prefix_refl _
  | cons e es ih =>
    intro st st1 h
    simp only [runEvents] at h
    cases hp : processEvent e.1 e.2 st with
    | next st2 =>
      rw [hp] at h
      have h2 := ih st2 st1 h
      rcases processEvent_marks e.1 e.2 st st2 hp with h1 | h1
      · rw [h1] at h2; exact h2
      · rw [h1] at h2
        exact (List.prefix_append _ _).trans h2
    | quit => rw [hp] at h; exact absurd h (by simp)
    | crash => rw [hp] at h; exact absurd h (by simp)

/-- C14.  The mark ring is append-only.  For every state and every event that
the handler completes, the marks before are a prefix of the marks after: either
the sequence is unchanged, or it is extended by exactly one mark.  Set-mark (`m`)
always appends one mark whose coordinates are the current offset and whose note
is empty, whether or not an equal mark is already stored; a key event whose rune
is not `m`, a resize and an ignored event leave the sequence, hence every stored
coordinate, unchanged, also when they change the viewport offset.  The prefix
property extends to every sequence of events. -/
theorem mark_ring_append_only (sz : Size) (st : Session) :
    (∀ ev st1, processEvent sz ev st = .next st1 →
        st.marks <+: st1.marks ∧
        (st1.marks = st.marks ∨ st1.marks = st.marks ++ [⟨st.buf.currentOffset, ""⟩])) ∧
      (∃ st1, processKey sz ⟨.Rune, 'm'⟩ st = .next st1 ∧
        st1.marks = st.marks ++ [⟨st.buf.currentOffset, ""⟩] ∧
        st1.marks.length = st.marks.length + 1) ∧
      (∀ k st1, k.rune ≠ 'm' → processKey sz k st = .next st1 → st1.marks = st.marks) ∧
      processEvent sz .resize st = .next st ∧ processEvent sz .other st = .next st ∧
      (∀ evs st1, runEvents st evs = .next st1 → st.marks <+: st1.marks) := by
  refine ⟨?_, ⟨_, processKey_m sz st, nextMark_marks _, ?_⟩, ?_, rfl, rfl,
    fun evs st1 h => runEvents_marks_prefix evs st st1 h⟩
  · intro ev st1 h
    have h1 := processEvent_marks sz ev st st1 h
    refine ⟨?_, h1⟩
    rcases h1 with h2 | h2
    · rw [h2]
    · rw [h2]; exact List.prefix_append _ _
  · rw [nextMark_marks]
    simp only [List.length_append, List.length_singleton]
  · intro k st1 hk h
    rcases processKey_marks sz k st st1 h with h1 | ⟨h1, _⟩
    · exact h1
    · exact absurd h1 hk

/-- Instance of C14: a second `m` at the same offset stores an equal mark again. -/
theorem mark_ring_append_only_witness :
    ∃ st1, processKey ⟨10, 4⟩ ⟨.Rune, 'm'⟩
        { buf := { currentOffset := ⟨0, 0⟩, lines := fiveLines },
          marks := [⟨⟨0, 0⟩, ""⟩], currentMark := 0 } = .next st1 ∧
      st1.marks = [⟨⟨0, 0⟩, ""⟩, ⟨⟨0, 0⟩, ""⟩] := by
  obtain ⟨st1, h1, h2, _⟩ :=
    (mark_ring_append_only ⟨10, 4⟩
      { buf := { currentOffset := ⟨0, 0⟩, lines := fiveLines },
        marks := [⟨⟨0, 0⟩, ""⟩], currentMark := 0 }).2.1
  exact ⟨st1, h1, h2⟩

/-! ## Setting marks, then cycling -/

theorem runEvents_append (a b : List (Size × Event)) :
    ∀ st st1 : Session, runEvents st a = .next st1 →
      runEvents st (a ++ b) = runEvents st1 b := by
  induction a with
  | nil =>
    intro st st1 h
    simp only [runEvents] at h
    injection h with h
    subst h
    rfl
  | cons e es ih =>
    intro st st1 h
    simp only [runEvents, List.cons_append] at h ⊢
    cases hp : processEvent e.1 e.2 st with
    | next st2 =>
      rw [hp] at h
      exact ih st2 st1 h
    | quit => rw [hp] at h; exact absurd h (by simp)
    | crash => rw [hp] at h; exact absurd h (by simp)

theorem processKey_n_step (sz : Size) (st : Session) (h0 : 0 ≤ st.currentMark)
    (h1 : st.currentMark < (st.marks.length : Int)) :
    ∃ m, markAt st.marks ((st.currentMark + 1) % (st.marks.length : Int)) = some m ∧
      processKey sz ⟨.Rune, 'n'⟩ st =
        .next { buf := { st.buf with currentOffset := m.coords }, marks := st.marks,
                currentMark := (st.currentMark + 1) % (st.marks.length : Int) } := by
  have hne : st.marks.length ≠ 0 := by omega
  have rn := mod_cursor_range (st.currentMark + 1) st.marks.length hne
  obtain ⟨m, hm⟩ := markAt_isSome rn.1 rn.2
  refine ⟨m, hm, ?_⟩
  rw [processKey_n, nextMark_mod st h0 h1]
  exact jumpToMark_eq _ m rn.1 hm

theorem runEvents_nexts (ns : List (Size × Event)) :
    ∀ st : Session, (∀ e ∈ ns, e.2 = .key ⟨.Rune, 'n'⟩) →
      0 ≤ st.currentMark → st.currentMark < (st.marks.length : Int) →
      ∃ st1, runEvents st ns = .next st1 ∧ st1.marks = st.marks ∧
        st1.currentMark = (st.currentMark + (ns.length : Int)) % (st.marks.length : Int) ∧
        (ns ≠ [] → ∃ m, markAt st.marks st1.currentMark = some m ∧
          st1.buf.currentOffset = m.coords) := by
  induction ns with
  | nil =>
    intro st _ h0 h1
    refine ⟨st, rfl, rfl, ?_, fun h => absurd rfl h⟩
    simp only [List.length_nil, Nat.cast_zero, add_zero]
    exact (Int.emod_eq_of_lt h0 h1).symm
  | cons e es ih =>
    intro st hns h0 h1
    have hne : st.marks.length ≠ 0 := by omega
    obtain ⟨m, hm, hstep⟩ := processKey_n_step e.1 st h0 h1
    have rn := mod_cursor_range (st.currentMark + 1) st.marks.length hne
    obtain ⟨st1, hrun, hmarks, hcur, hoff⟩ :=
      ih { buf := { st.buf with currentOffset := m.coords }, marks := st.marks,
           currentMark := (st.currentMark + 1) % (st.marks.length : Int) }
        (fun e1 he1 => hns e1 (List.mem_cons_of_mem e he1)) rn.1 rn.2
    have hev : processEvent e.1 e.2 st = processKey e.1 ⟨.Rune, 'n'⟩ st := by
      rw [hns e (List.mem_cons_self e es)]
      rfl
    have hcur2 : st1.currentMark
        = (st.currentMark + ((e :: es).length : Int)) % (st.marks.length : Int) := by
      rw [hcur]
      show ((st.currentMark + 1) % (st.marks.length : Int) + (es.length : Int))
        % (st.marks.length : Int) = _
      rw [Int.emod_add_emod]
      congr 1
      simp only [List.length_cons, Nat.cast_add, Nat.cast_one]
      omega
    refine ⟨st1, ?_, hmarks, hcur2, ?_⟩
    · simp only [runEvents, hev, hstep]
      exact hrun
    · intro _
      by_cases hes : es = []
      · subst hes
        simp only [runEvents] at hrun
        injection hrun with hrun
        subst hrun
        exact ⟨m, hm, rfl⟩
      · exact hoff hes

/-- C13 (the program departs from the claim).  On a five-line file with screen
height 2: set a mark at `(0,0)`, move down, set a mark at `(0,1)`, jump back with
`p`, move down twice to `(0,2)` and set a third mark.  The cursor then is 1, so
the mark at the cursor has coordinates `(0,1)`, not the offset `(0,2)` that was
current when the mark was set; the new mark sits at index 2. -/
theorem set_mark_after_previous_recalls_other_mark :
    runEvents (Session.start fiveLines)
        [(⟨10, 2⟩, .key ⟨.Rune, 'm'⟩), (⟨10, 2⟩, .key ⟨.Rune, 'j'⟩),
          (⟨10, 2⟩, .key ⟨.Rune, 'm'⟩), (⟨10, 2⟩, .key ⟨.Rune, 'p'⟩),
          (⟨10, 2⟩, .key ⟨.Rune, 'j'⟩), (⟨10, 2⟩, .key ⟨.Rune, 'j'⟩),
          (⟨10, 2⟩, .key ⟨.Rune, 'm'⟩)]
      = .next { buf := { currentOffset := ⟨0, 2⟩, lines := fiveLines },
                marks := [⟨⟨0, 0⟩, ""⟩, ⟨⟨0, 1⟩, ""⟩, ⟨⟨0, 2⟩, ""⟩], currentMark := 1 } ∧
      markAt [⟨⟨0, 0⟩, ""⟩, ⟨⟨0, 1⟩, ""⟩, ⟨⟨0, 2⟩, ""⟩] 1 = some ⟨⟨0, 1⟩, ""⟩ ∧
      (⟨0, 1⟩ : Coords) ≠ ⟨0, 2⟩ ∧
      runEvents (Session.start fiveLines)
        [(⟨10, 2⟩, .key ⟨.Rune, 'm'⟩), (⟨10, 2⟩, .key ⟨.Rune, 'j'⟩),
          (⟨10, 2⟩, .key ⟨.Rune, 'm'⟩), (⟨10, 2⟩, .key ⟨.Rune, 'p'⟩),
          (⟨10, 2⟩, .key ⟨.Rune, 'j'⟩), (⟨10, 2⟩, .key ⟨.Rune, 'j'⟩)]
      = .next { buf := { currentOffset := ⟨0, 2⟩, lines := fiveLines },
                marks := [⟨⟨0, 0⟩, ""⟩, ⟨⟨0, 1⟩, ""⟩], currentMark := 0 } := by
  refine ⟨?_, ?_, ?_, ?_⟩ <;> decide

/-! ## Framing -/

theorem processKey_l (sz : Size) (st : Session) :
    processKey sz ⟨.Rune, 'l'⟩ st = .next (st.setX (st.buf.currentOffset.x - 1)) := rfl

theorem processKey_L (sz : Size) (st : Session) :
    processKey sz ⟨.Rune, 'L'⟩ st =
      .next (st.setX (st.buf.currentOffset.x - Int.tdiv sz.w 2)) := rfl

theorem processKey_zero (sz : Size) (st : Session) :
    processKey sz ⟨.Rune, '0'⟩ st = .next (st.setX 0) := rfl

theorem processKey_ctrlL (sz : Size) (st : Session) (r : Char) (hr : r.toNat < 32) :
    processKey sz ⟨.CtrlL, r⟩ st = .next st := by
  have hq : r ≠ 'q' := ctrl_rune_ne r hr _ (by decide)
  simp [processKey, isExitKey, ctrl_rune_toLower r hr, hq]

theorem processKey_unbound (sz : Size) (ev : EventKey) (st : Session)
    (hexit : isExitKey ev = false) (hD : ev.key ≠ .CtrlD) (hU : ev.key ≠ .CtrlU)
    (hrune : ev.rune ∉ [' ', 'b', 'j', 'k', 'J', 'K', 'h', 'l', 'H', 'L', '0', 'g', 'G',
      'm', 'n', 'p']) :
    processKey sz ev st = .next st := by
  simp only [List.mem_cons, List.mem_singleton, List.not_mem_nil, or_false, not_or] at hrune
  obtain ⟨r1, r2, r3, r4, r5, r6, r7, r8, r9, r10, r11, r12, r13, r14, r15, r16⟩ := hrune
  refine processKey_cases_guarded (fun o => o = .next st) sz ev st
    ?_ rfl ?_ ?_ ?_ ?_ ?_ ?_ ?_ ?_ ?_ ?_ ?_ ?_ ?_ ?_ ?_ ?_
  · intro h; rw [hexit] at h; exact absurd h (by simp)
  · intro h; exact absurd h r1
  · intro h; exact absurd h r2
  · intro h; exact absurd h r3
  · intro h; exact absurd h r4
  · intro h; rcases h with h | h
    · exact absurd h r5
    · exact absurd h hD
  · intro h; rcases h with h | h
    · exact absurd h r6
    · exact absurd h hU
  · intro h; exact absurd h r7
  · intro h; exact absurd h r8
  · intro h; exact absurd h r9
  · intro h; exact absurd h r10
  · intro h; exact absurd h r11
  · intro h; exact absurd h r12
  · intro h; exact absurd h r13
  · intro h; exact absurd h r14
  · intro h; exact absurd h r15
  · intro h; exact absurd h r16

/-- C17.  Framing of navigation.  Each vertical command (`j`, `k`, space, `b`,
`J`, Ctrl-D, `K`, Ctrl-U, `g`, `G`) leaves `x` unchanged and each horizontal
command (`h`, `l`, `H`, `L`, `0`) leaves `y` unchanged; none of them changes the
content, the marks or the cursor.  A resize event, an ignored event, the redraw
key Ctrl-L and every key bound to no command leave the whole state unchanged. -/
theorem navigation_framing (sz : Size) (st : Session) (r : Char) (hr : r.toNat < 32) :
    (∀ ev : EventKey,
        ev ∈ [⟨.Rune, 'j'⟩, ⟨.Rune, 'k'⟩, ⟨.Rune, ' '⟩, ⟨.Rune, 'b'⟩, ⟨.Rune, 'J'⟩,
          ⟨.CtrlD, r⟩, ⟨.Rune, 'K'⟩, ⟨.CtrlU, r⟩, ⟨.Rune, 'g'⟩, ⟨.Rune, 'G'⟩] →
        ∃ st1, processKey sz ev st = .next st1 ∧
          st1.buf.currentOffset.x = st.buf.currentOffset.x ∧
          st1.buf.lines = st.buf.lines ∧ st1.marks = st.marks ∧
          st1.currentMark = st.currentMark) ∧
      (∀ ev : EventKey,
        ev ∈ [⟨.Rune, 'h'⟩, ⟨.Rune, 'l'⟩, ⟨.Rune, 'H'⟩, ⟨.Rune, 'L'⟩, ⟨.Rune, '0'⟩] →
        ∃ st1, processKey sz ev st = .next st1 ∧
          st1.buf.currentOffset.y = st.buf.currentOffset.y ∧
          st1.buf.lines = st.buf.lines ∧ st1.marks = st.marks ∧
          st1.currentMark = st.currentMark) ∧
      processEvent sz .resize st = .next st ∧
      processEvent sz .other st = .next st ∧
      processEvent sz (.key ⟨.CtrlL, r⟩) st = .next st ∧
      (∀ ev : EventKey, isExitKey ev = false → ev.key ≠ .CtrlD → ev.key ≠ .CtrlU →
        ev.rune ∉ [' ', 'b', 'j', 'k', 'J', 'K', 'h', 'l', 'H', 'L', '0', 'g', 'G',
          'm', 'n', 'p'] →
        processEvent sz (.key ev) st = .next st) := by
  refine ⟨?_, ?_, rfl, rfl, processKey_ctrlL sz st r hr,
    fun ev h1 h2 h3 h4 => processKey_unbound sz ev st h1 h2 h3 h4⟩
  · intro ev hev
    simp only [List.mem_cons, List.mem_singleton, List.not_mem_nil, or_false] at hev
    rcases hev with h | h | h | h | h | h | h | h | h | h <;> subst h
    · exact ⟨_, processKey_j sz st, rfl, rfl, rfl, rfl⟩
    · exact ⟨_, processKey_k sz st, rfl, rfl, rfl, rfl⟩
    · exact ⟨_, processKey_space sz st, rfl, rfl, rfl, rfl⟩
    · exact ⟨_, processKey_b sz st, rfl, rfl, rfl, rfl⟩
    · exact ⟨_, processKey_J sz st, rfl, rfl, rfl, rfl⟩
    · exact ⟨_, processKey_ctrlD sz st r hr, rfl, rfl, rfl, rfl⟩
    · exact ⟨_, processKey_K sz st, rfl, rfl, rfl, rfl⟩
    · exact ⟨_, processKey_ctrlU sz st r hr, rfl, rfl, rfl, rfl⟩
    · exact ⟨_, processKey_g sz st, rfl, rfl, rfl, rfl⟩
    · exact ⟨_, processKey_G sz st, rfl, rfl, rfl, rfl⟩
  · intro ev hev
    simp only [List.mem_cons, List.mem_singleton, List.not_mem_nil, or_false] at hev
    rcases hev with h | h | h | h | h <;> subst h
    · exact ⟨_, processKey_h sz st, rfl, rfl, rfl, rfl⟩
    · exact ⟨_, processKey_l sz st, rfl, rfl, rfl, rfl⟩
    · exact ⟨_, processKey_H sz st, rfl, rfl, rfl, rfl⟩
    · exact ⟨_, processKey_L sz st, rfl, rfl, rfl, rfl⟩
    · exact ⟨_, processKey_zero sz st, rfl, rfl, rfl, rfl⟩

/-- Instance of C17: the unbound key `x` and Ctrl-L at offset `(0, 1)`. -/
theorem navigation_framing_witness :
    (Char.ofNat 12).toNat < 32 ∧
      processEvent ⟨10, 2⟩ (.key ⟨.CtrlL, Char.ofNat 12⟩) ((Session.start fiveLines).setY 1)
        = .next ((Session.start fiveLines).setY 1) ∧
      processEvent ⟨10, 2⟩ (.key ⟨.Rune, 'x'⟩) ((Session.start fiveLines).setY 1)
        = .next ((Session.start fiveLines).setY 1) :=
  have h := navigation_framing ⟨10, 2⟩ ((Session.start fiveLines).setY 1) (Char.ofNat 12)
    (by decide)
  ⟨by decide, h.2.2.2.2.1, h.2.2.2.2.2 ⟨.Rune, 'x'⟩ (by decide) (by decide) (by decide)
    (by decide)⟩

/-! ## The safe window -/

theorem lineAt_isSome {lines : List String} {i : Int} (h0 : 0 ≤ i)
    (h1 : i < (lines.length : Int)) : ∃ text, lineAt lines i = some text := by
  unfold lineAt
  rw [if_pos h0]
  have h2 : i.toNat < lines.length := by omega
  exact ⟨lines[i.toNat], List.getElem?_eq_getElem h2⟩

theorem renderLoop_isSome (sz : Size) (style : Style) (buf : Buffer) (rows : List Nat)
    (h : ∀ y ∈ rows, 0 ≤ buf.currentOffset.y + (y : Int) ∧
      buf.currentOffset.y + (y : Int) < (buf.lines.length : Int)) :
    ∃ calls, renderLoop sz style buf rows = some calls := by
  induction rows with
  | nil => exact ⟨[], rfl⟩
  | cons y ys ih =>
    obtain ⟨text, ht⟩ := lineAt_isSome (h y (List.mem_cons_self y ys)).1
      (h y (List.mem_cons_self y ys)).2
    obtain ⟨rest, hrest⟩ := ih (fun y1 hy1 => h y1 (List.mem_cons_of_mem y hy1))
    exact ⟨drawLine sz buf.currentOffset.x (y : Int) style text ++ rest, by
      simp only [renderLoop, ht, hrest]⟩

theorem render_in_window (sz : Size) (style : Style) (buf : Buffer)
    (h0 : 0 ≤ buf.currentOffset.y)
    (h1 : buf.currentOffset.y ≤ (buf.lines.length : Int) - sz.h) :
    (∀ i ∈ renderIndices sz buf, 0 ≤ i ∧ i < (buf.lines.length : Int)) ∧
      ∃ calls, renderViewPort sz style buf = some calls := by
  have hrows : ∀ y ∈ renderRows sz buf, 0 ≤ buf.currentOffset.y + (y : Int) ∧
      buf.currentOffset.y + (y : Int) < (buf.lines.length : Int) := by
    intro y hy
    simp only [renderRows, List.mem_range, renderHeight] at hy
    split_ifs at hy <;> omega
  constructor
  · intro i hi
    simp only [renderIndices, List.mem_map] at hi
    obtain ⟨y, hy, rfl⟩ := hi
    exact hrows y hy
  · exact renderLoop_isSome sz style buf _ hrows

theorem processKey_window (sz : Size) (ev : EventKey) (st : Session) (hh : 1 ≤ sz.h)
    (hN : sz.h ≤ (st.buf.lines.length : Int)) (hsp : ev.rune ≠ ' ')
    (hy0 : 0 ≤ st.buf.currentOffset.y)
    (hy1 : st.buf.currentOffset.y ≤ (st.buf.lines.length : Int) - sz.h)
    (hm : ∀ m ∈ st.marks, 0 ≤ m.coords.y ∧ m.coords.y ≤ (st.buf.lines.length : Int) - sz.h) :
    ∀ st1, processKey sz ev st = .next st1 →
      st1.buf.lines = st.buf.lines ∧ 0 ≤ st1.buf.currentOffset.y ∧
        st1.buf.currentOffset.y ≤ (st.buf.lines.length : Int) - sz.h ∧
        ∀ m ∈ st1.marks, 0 ≤ m.coords.y ∧ m.coords.y ≤ (st.buf.lines.length : Int) - sz.h := by
  have hd : 0 ≤ Int.tdiv sz.h 2 := Int.tdiv_nonneg (by omega) (by decide)
  have hset : ∀ st0 : Session, st0.buf.lines = st.buf.lines →
      0 ≤ st0.buf.currentOffset.y →
      st0.buf.currentOffset.y ≤ (st.buf.lines.length : Int) - sz.h →
      st0.marks = st.marks →
      ∀ st1, Outcome.next st0 = .next st1 →
        st1.buf.lines = st.buf.lines ∧ 0 ≤ st1.buf.currentOffset.y ∧
          st1.buf.currentOffset.y ≤ (st.buf.lines.length : Int) - sz.h ∧
          ∀ m ∈ st1.marks, 0 ≤ m.coords.y ∧
            m.coords.y ≤ (st.buf.lines.length : Int) - sz.h := by
    intro st0 hl h0 h1 hm0 st1 h
    injection h with h
    subst h
    exact ⟨hl, h0, h1, by rw [hm0]; exact hm⟩
  have hjump : ∀ st0 : Session, st0.buf = st.buf → st0.marks = st.marks →
      ∀ st1, jumpToMark st0 = .next st1 →
        st1.buf.lines = st.buf.lines ∧ 0 ≤ st1.buf.currentOffset.y ∧
          st1.buf.currentOffset.y ≤ (st.buf.lines.length : Int) - sz.h ∧
          ∀ m ∈ st1.marks, 0 ≤ m.coords.y ∧
            m.coords.y ≤ (st.buf.lines.length : Int) - sz.h := by
    intro st0 hb0 hm0 st1 h
    obtain ⟨h1, _, h3, h4⟩ := jumpToMark_next h
    refine ⟨by rw [h3, hb0], ?_, ?_, by rw [h1, hm0]; exact hm⟩
    · rcases h4 with h4 | ⟨m, hmem, h4⟩
      · rw [h4, hb0]; exact hy0
      · rw [h4]; exact (hm m (hm0 ▸ hmem)).1
    · rcases h4 with h4 | ⟨m, hmem, h4⟩
      · rw [h4, hb0]; exact hy1
      · rw [h4]; exact (hm m (hm0 ▸ hmem)).2
  refine processKey_cases_guarded
    (fun o => ∀ st1, o = .next st1 →
      st1.buf.lines = st.buf.lines ∧ 0 ≤ st1.buf.currentOffset.y ∧
        st1.buf.currentOffset.y ≤ (st.buf.lines.length : Int) - sz.h ∧
        ∀ m ∈ st1.marks, 0 ≤ m.coords.y ∧
          m.coords.y ≤ (st.buf.lines.length : Int) - sz.h) sz ev st
    ?_ ?_ ?_ ?_ ?_ ?_ ?_ ?_ ?_ ?_ ?_ ?_ ?_ ?_ ?_ ?_ ?_ ?_
  · intro _ st1 h; exact absurd h (by simp)
  · exact hset st rfl hy0 hy1 rfl
  · intro h; exact absurd h hsp
  · intro _
    refine hset _ rfl ?_ ?_ rfl <;> simp only [Session.setY] <;> split <;> omega
  · intro _
    refine hset _ rfl ?_ ?_ rfl <;> simp only [Session.setY] <;> split <;> omega
  · intro _
    refine hset _ rfl ?_ ?_ rfl <;> simp only [Session.setY] <;> split <;> omega
  · intro _
    refine hset _ rfl ?_ ?_ rfl <;> simp only [Session.setY] <;> split <;> omega
  · intro _
    refine hset _ rfl ?_ ?_ rfl <;> simp only [Session.setY] <;> split <;> omega
  · intro _; exact hset _ rfl hy0 hy1 rfl
  · intro _; exact hset _ rfl hy0 hy1 rfl
  · intro _; exact hset _ rfl hy0 hy1 rfl
  · intro _; exact hset _ rfl hy0 hy1 rfl
  · intro _; exact hset _ rfl hy0 hy1 rfl
  · intro _
    refine hset _ rfl ?_ ?_ rfl <;> simp only [Session.setY] <;> omega
  · intro _
    refine hset _ rfl ?_ ?_ rfl <;> simp only [Session.setY] <;> omega
  · intro _ st1 h
    injection h with h
    subst h
    rw [nextMark_buf, nextMark_marks]
    refine ⟨rfl, hy0, hy1, ?_⟩
    intro m hmem
    rcases List.mem_append.1 hmem with h1 | h1
    · exact hm m h1
    · rw [List.mem_singleton.1 h1]; exact ⟨hy0, hy1⟩
  · intro _; exact hjump _ (nextMark_buf st) (nextMark_marks st)
  · intro _; exact hjump _ (prevMark_buf st) (prevMark_marks st)

theorem processEvent_window (sz : Size) (ev : Event) (st : Session) (hh : 1 ≤ sz.h)
    (hN : sz.h ≤ (st.buf.lines.length : Int)) (hsp : ∀ k, ev = .key k → k.rune ≠ ' ')
    (hy0 : 0 ≤ st.buf.currentOffset.y)
    (hy1 : st.buf.currentOffset.y ≤ (st.buf.lines.length : Int) - sz.h)
    (hm : ∀ m ∈ st.marks, 0 ≤ m.coords.y ∧ m.coords.y ≤ (st.buf.lines.length : Int) - sz.h) :
    ∀ st1, processEvent sz ev st = .next st1 →
      st1.buf.lines = st.buf.lines ∧ 0 ≤ st1.buf.currentOffset.y ∧
        st1.buf.currentOffset.y ≤ (st.buf.lines.length : Int) - sz.h ∧
        ∀ m ∈ st1.marks, 0 ≤ m.coords.y ∧ m.coords.y ≤ (st.buf.lines.length : Int) - sz.h := by
  cases ev with
  | resize =>
    intro st1 h
    injection h with h
    subst h
    exact ⟨rfl, hy0, hy1, hm⟩
  | key k => exact processKey_window sz k st hh hN (hsp k rfl) hy0 hy1 hm
  | other =>
    intro st1 h
    injection h with h
    subst h
    exact ⟨rfl, hy0, hy1, hm⟩

theorem runEvents_window (h : Int) (hh : 1 ≤ h) (evs : List (Size × Event)) :
    ∀ st : Session, h ≤ (st.buf.lines.length : Int) →
      (∀ e ∈ evs, e.1.h = h ∧ ∀ k, e.2 = .key k → k.rune ≠ ' ') →
      0 ≤ st.buf.currentOffset.y → st.buf.currentOffset.y ≤ (st.buf.lines.length : Int) - h →
      (∀ m ∈ st.marks, 0 ≤ m.coords.y ∧ m.coords.y ≤ (st.buf.lines.length : Int) - h) →
      ∀ st1, runEvents st evs = .next st1 →
        st1.buf.lines = st.buf.lines ∧ 0 ≤ st1.buf.currentOffset.y ∧
          st1.buf.currentOffset.y ≤ (st.buf.lines.length : Int) - h ∧
          ∀ m ∈ st1.marks, 0 ≤ m.coords.y ∧
            m.coords.y ≤ (st.buf.lines.length : Int) - h := by
  induction evs with
  | nil =>
    intro st _ _ hy0 hy1 hm st1 hrun
    simp only [runEvents] at hrun
    injection hrun with hrun
    subst hrun
    exact ⟨rfl, hy0, hy1, hm⟩
  | cons e es ih =>
    intro st hN hev hy0 hy1 hm st1 hrun
    simp only [runEvents] at hrun
    obtain ⟨he1, he2⟩ := hev e (List.mem_cons_self e es)
    cases hp : processEvent e.1 e.2 st with
    | next st2 =>
      rw [hp] at hrun
      obtain ⟨hl, a0, a1, am⟩ := processEvent_window e.1 e.2 st (by rw [he1]; exact hh)
        (by rw [he1]; exact hN) he2 hy0 (by rw [he1]; exact hy1)
        (by rw [he1]; exact hm) st2 hp
      rw [he1] at a1 am
      have := ih st2 (by rw [hl]; exact hN)
        (fun e1 h1 => hev e1 (List.mem_cons_of_mem e h1)) a0 (by rw [hl]; exact a1)
        (by rw [hl]; exact am) st1 hrun
      rw [hl] at this
      exact this
    | quit => rw [hp] at hrun; exact absurd hrun (by simp)
    | crash => rw [hp] at hrun; exact absurd hrun (by simp)

theorem processEvent_cursor (sz : Size) (ev : Event) (st : Session)
    (hc : (st.currentMark = -1 ∧ st.marks.length = 0) ∨
      (0 ≤ st.currentMark ∧ st.currentMark < (st.marks.length : Int))) :
    processEvent sz ev st ≠ .crash ∧
      ∀ st1, processEvent sz ev st = .next st1 →
        (st1.currentMark = -1 ∧ st1.marks.length = 0) ∨
          (0 ≤ st1.currentMark ∧ st1.currentMark < (st1.marks.length : Int)) := by
  cases ev with
  | resize =>
    refine ⟨by simp [processEvent], ?_⟩
    intro st1 h
    injection h with h
    subst h
    exact hc
  | key k => exact processKey_cursor sz k st hc
  | other =>
    refine ⟨by simp [processEvent], ?_⟩
    intro st1 h
    injection h with h
    subst h
    exact hc

theorem eventLoop_window (style : Style) (h : Int) (hh : 1 ≤ h) (frames : List Frame) :
    ∀ st : Session, h ≤ (st.buf.lines.length : Int) →
      (∀ f ∈ frames, f.renderSize.h = h ∧ f.evSize.h = h ∧
        ∀ k, f.ev = .key k → k.rune ≠ ' ') →
      ((st.currentMark = -1 ∧ st.marks.length = 0) ∨
        (0 ≤ st.currentMark ∧ st.currentMark < (st.marks.length : Int))) →
      0 ≤ st.buf.currentOffset.y → st.buf.currentOffset.y ≤ (st.buf.lines.length : Int) - h →
      (∀ m ∈ st.marks, 0 ≤ m.coords.y ∧ m.coords.y ≤ (st.buf.lines.length : Int) - h) →
      eventLoop style st frames ≠ .crash := by
  induction frames with
  | nil =>
    intro st _ _ _ _ _ _
    simp [eventLoop]
  | cons f fs ih =>
    intro st hN hf hc hy0 hy1 hm
    obtain ⟨f1, f2, f3⟩ := hf f (List.mem_cons_self f fs)
    obtain ⟨calls, hcalls⟩ :=
      (render_in_window f.renderSize style st.buf hy0 (by rw [f1]; exact hy1)).2
    simp only [eventLoop, hcalls]
    obtain ⟨hnc, hcur⟩ := processEvent_cursor f.evSize f.ev st hc
    cases hp : processEvent f.evSize f.ev st with
    | next st2 =>
      obtain ⟨hl, a0, a1, am⟩ := processEvent_window f.evSize f.ev st (by rw [f2]; exact hh)
        (by rw [f2]; exact hN) f3 hy0 (by rw [f2]; exact hy1)
        (by rw [f2]; exact hm) st2 hp
      rw [f2] at a1 am
      exact ih st2 (by rw [hl]; exact hN)
        (fun f0 h0 => hf f0 (List.mem_cons_of_mem f h0)) (hcur st2 hp) a0
        (by rw [hl]; exact a1) (by rw [hl]; exact am)
    | quit => simp
    | crash => exact absurd hp hnc

/-- C18, the claim as stated fails at `h = 0`: on a three-line file with screen
height 0 (so `0 ≤ h ≤ N`), four page-up commands (`b`, each adds `-(h - 1) = 1`)
lead from `y = 0` to `y = 4`, above `N - h = 3`; no page-down is involved. -/
theorem page_up_height_zero_leaves_window :
    runEvents (Session.start threeLines)
        [(⟨10, 0⟩, .key ⟨.Rune, 'b'⟩), (⟨10, 0⟩, .key ⟨.Rune, 'b'⟩),
          (⟨10, 0⟩, .key ⟨.Rune, 'b'⟩), (⟨10, 0⟩, .key ⟨.Rune, 'b'⟩)]
      = .next ((Session.start threeLines).setY 4) ∧
      (0 : Int) ≤ 0 ∧ (0 : Int) ≤ (threeLines.length : Int) ∧
      ¬ (((Session.start threeLines).setY 4).buf.currentOffset.y
          ≤ (threeLines.length : Int) - 0) := by
  refine ⟨?_, ?_, ?_, ?_⟩ <;> decide

/-- C18, amended.  Fix a file of `N` lines and a screen height `h` with
`1 ≤ h ≤ N` that every event is handled with.  From the initial state, under
every sequence of events without page-down (no key event whose rune is the
space), the content is unchanged and the offset and every stored mark satisfy
`0 ≤ y ≤ N - h`; hence every line index a frame of height `h` looks up lies in
`[0, N)`, `renderViewPort` returns normally, and the event loop run on frames of
height `h` without page-down never crashes. -/
theorem safe_window_without_page_down (lines : List String) (h : Int)
    (evs : List (Size × Event)) (hh : 1 ≤ h) (hN : h ≤ (lines.length : Int))
    (hev : ∀ e ∈ evs, e.1.h = h ∧ ∀ k, e.2 = .key k → k.rune ≠ ' ') :
    (∀ st, runEvents (Session.start lines) evs = .next st →
        st.buf.lines = lines ∧
        0 ≤ st.buf.currentOffset.y ∧ st.buf.currentOffset.y ≤ (lines.length : Int) - h ∧
        (∀ m ∈ st.marks, 0 ≤ m.coords.y ∧ m.coords.y ≤ (lines.length : Int) - h) ∧
        ∀ (w : Int) (style : Style),
          (∀ i ∈ renderIndices ⟨w, h⟩ st.buf, 0 ≤ i ∧ i < (lines.length : Int)) ∧
          ∃ calls, renderViewPort ⟨w, h⟩ style st.buf = some calls) ∧
      (∀ (style : Style) (frames : List Frame),
        (∀ f ∈ frames, f.renderSize.h = h ∧ f.evSize.h = h ∧
          ∀ k, f.ev = .key k → k.rune ≠ ' ') →
        eventLoop style (Session.start lines) frames ≠ .crash) := by
  have hy1 : (Session.start lines).buf.currentOffset.y
      ≤ ((Session.start lines).buf.lines.length : Int) - h := by
    show (0 : Int) ≤ (lines.length : Int) - h
    omega
  have hm0 : ∀ m ∈ (Session.start lines).marks, 0 ≤ m.coords.y ∧
      m.coords.y ≤ ((Session.start lines).buf.lines.length : Int) - h :=
    fun m hm => absurd hm (by simp [Session.start])
  constructor
  · intro st hst
    obtain ⟨hl, a0, a1, am⟩ := runEvents_window h hh evs (Session.start lines) hN hev
      (le_refl _) hy1 hm0 st hst
    have hl2 : st.buf.lines = lines := hl
    refine ⟨hl2, a0, a1, am, ?_⟩
    intro w style
    have := render_in_window ⟨w, h⟩ style st.buf a0 (by rw [hl2]; exact a1)
    rw [hl2] at this
    exact this
  · intro style frames hf
    exact eventLoop_window style h hh frames (Session.start lines) hN hf
      (Or.inl ⟨rfl, rfl⟩) (le_refl _) hy1 hm0

/-- Instance of the amended C18: five lines, height 2, keys `G`, `m`, `g`, `J`, `n`. -/
theorem safe_window_without_page_down_witness :
    ∃ st, runEvents (Session.start fiveLines)
        [(⟨10, 2⟩, .key ⟨.Rune, 'G'⟩), (⟨10, 2⟩, .key ⟨.Rune, 'm'⟩),
          (⟨10, 2⟩, .key ⟨.Rune, 'g'⟩), (⟨10, 2⟩, .key ⟨.Rune, 'J'⟩),
          (⟨10, 2⟩, .key ⟨.Rune, 'n'⟩)] = .next st ∧
      st.buf.currentOffset.y = 3 ∧ st.buf.currentOffset.y ≤ (fiveLines.length : Int) - 2 :=
  ⟨{ buf := { currentOffset := ⟨0, 3⟩, lines := fiveLines },
     marks := [⟨⟨0, 3⟩, ""⟩], currentMark := 0 },
    by decide, rfl,
    ((safe_window_without_page_down fiveLines 2
      [(⟨10, 2⟩, .key ⟨.Rune, 'G'⟩), (⟨10, 2⟩, .key ⟨.Rune, 'm'⟩),
        (⟨10, 2⟩, .key ⟨.Rune, 'g'⟩), (⟨10, 2⟩, .key ⟨.Rune, 'J'⟩),
        (⟨10, 2⟩, .key ⟨.Rune, 'n'⟩)] (by decide) (by decide)
      (by
        intro e he
        simp only [List.mem_cons, List.mem_singleton, List.not_mem_nil, or_false] at he
        rcases he with h | h | h | h | h <;> subst h <;>
          exact ⟨rfl, fun k hk => by injection hk with hk; subst hk; decide⟩)).1 _
      (by decide)).2.2.1⟩

/-! ## Drawing one line -/

theorem lastWrite_none (calls : List SetContent) (col row : Int)
    (h : ∀ c ∈ calls, c.col ≠ col ∨ c.row ≠ row) : lastWrite calls col row = none := by
  induction calls with
  | nil => rfl
  | cons c cs ih =>
    have h1 := ih (fun c1 hc1 => h c1 (List.mem_cons_of_mem c hc1))
    have h2 : ¬ (c.col = col ∧ c.row = row) := by
      intro hc
      rcases h c (List.mem_cons_self c cs) with h3 | h3
      · exact h3 hc.1
      · exact h3 hc.2
    simp only [lastWrite, h1, if_neg h2]

theorem lastWrite_append_none (a b : List SetContent) (col row : Int)
    (h : lastWrite b col row = none) : lastWrite (a ++ b) col row = lastWrite a col row := by
  induction a with
  | nil => simpa using h
  | cons c cs ih =>
    show (match lastWrite (cs ++ b) col row with
      | some v => some v
      | none => if c.col = col ∧ c.row = row then some (c.r, c.style) else none) = _
    rw [ih]
    rfl

theorem drawRunes_calls (w row : Int) (style : Style) (text : List Char) :
    ∀ col : Int, col < w →
      (∀ c ∈ (drawRunes w row style col text).1, c.row = row ∧ col ≤ c.col ∧ c.col < w) ∧
        (drawRunes w row style col text).2 = col + min (text.length : Int) (w - col) := by
  induction text with
  | nil =>
    intro col hcol
    refine ⟨fun c hc => absurd hc (by simp [drawRunes]), ?_⟩
    simp only [drawRunes, List.length_nil, Nat.cast_zero]
    omega
  | cons r rs ih =>
    intro col hcol
    by_cases hw : col + 1 ≥ w
    · simp only [drawRunes, if_pos hw, List.mem_singleton, List.length_cons, Nat.cast_add,
        Nat.cast_one]
      refine ⟨?_, by omega⟩
      intro c hc
      subst hc
      exact ⟨rfl, le_refl _, hcol⟩
    · obtain ⟨ih1, ih2⟩ := ih (col + 1) (by omega)
      simp only [drawRunes, if_neg hw, List.mem_cons, List.length_cons, Nat.cast_add,
        Nat.cast_one]
      refine ⟨?_, by rw [ih2]; omega⟩
      intro c hc
      rcases hc with hc | hc
      · subst hc
        exact ⟨rfl, le_refl _, hcol⟩
      · obtain ⟨a, b, d⟩ := ih1 c hc
        exact ⟨a, by omega, d⟩

theorem drawRunes_lastWrite (w row : Int) (style : Style) (text : List Char) :
    ∀ (col c : Int) (ch : Char), col ≤ c → c < w → text[(c - col).toNat]? = some ch →
      lastWrite (drawRunes w row style col text).1 c row = some (ch, style) := by
  induction text with
  | nil =>
    intro col c ch _ _ h
    simp only [List.getElem?_nil] at h
    exact absurd h (by simp)
  | cons r rs ih =>
    intro col c ch h0 h1 hch
    by_cases hc : c = col
    · subst hc
      have hr : ch = r := by
        simp only [sub_self, Int.toNat_zero, List.getElem?_cons_zero, Option.some.injEq] at hch
        exact hch.symm
      subst hr
      by_cases hw : c + 1 ≥ w
      · simp only [drawRunes, if_pos hw, lastWrite, and_self, if_true]
      · have hrest : lastWrite (drawRunes w row style (c + 1) rs).1 c row = none := by
          apply lastWrite_none
          intro c1 hc1
          have := ((drawRunes_calls w row style rs (c + 1) (by omega)).1 c1 hc1).2.1
          exact Or.inl (by omega)
        simp only [drawRunes, if_neg hw, lastWrite, hrest, and_self, if_true]
    · have hw : ¬ (col + 1 ≥ w) := by omega
      have hidx : (c - col).toNat = (c - (col + 1)).toNat + 1 := by omega
      rw [hidx, List.getElem?_cons_succ] at hch
      have hrest := ih (col + 1) c ch (by omega) h1 hch
      simp only [drawRunes, if_neg hw, lastWrite, hrest]

theorem drawBlanks_calls (w row : Int) (style : Style) (col : Int) :
    ∀ c ∈ drawBlanks w row style col,
      c.row = row ∧ col ≤ c.col ∧ c.col < w ∧ c.r = ' ' ∧ c.style = style := by
  intro c hc
  simp only [drawBlanks, List.mem_map, List.mem_range] at hc
  obtain ⟨i, hi, rfl⟩ := hc
  exact ⟨rfl, by simp only; omega, by simp only; omega, rfl, rfl⟩

/-- C16.  Truncation and panning in `drawLine`: for every text, every `x ≤ 0`
and every width `w ≥ 1`, every `SetContent` call of `drawLine` is on the given
row and at a column below `w` (a long line is cut, nothing goes to another row),
and every column `c` with `0 ≤ c < w` and `c - x < len(runes(text))` is left
holding the rune at index `c - x` of the line, in the given style. -/
theorem drawLine_truncates_and_pans (sz : Size) (x y : Int) (style : Style) (text : String)
    (hx : x ≤ 0) (hw : 1 ≤ sz.w) :
    (∀ c ∈ drawLine sz x y style text, c.row = y ∧ c.col < sz.w) ∧
      (∀ c : Int, 0 ≤ c → c < sz.w → c - x < (text.toList.length : Int) →
        ∃ ch, text.toList[(c - x).toNat]? = some ch ∧
          lastWrite (drawLine sz x y style text) c y = some (ch, style)) := by
  obtain ⟨hcalls, hcol⟩ := drawRunes_calls sz.w y style text.toList x (by omega)
  constructor
  · intro c hc
    simp only [drawLine] at hc
    split_ifs at hc
    · rcases List.mem_append.1 hc with h | h
      · exact ⟨(hcalls c h).1, (hcalls c h).2.2⟩
      · obtain ⟨a, _, b, _⟩ := drawBlanks_calls sz.w y style _ c h
        exact ⟨a, b⟩
    · exact ⟨(hcalls c hc).1, (hcalls c hc).2.2⟩
  · intro c h0 h1 hlen
    have hidx : (c - x).toNat < text.toList.length := by omega
    refine ⟨text.toList[(c - x).toNat], List.getElem?_eq_getElem hidx, ?_⟩
    have hrunes := drawRunes_lastWrite sz.w y style text.toList x c _ (by omega) h1
      (List.getElem?_eq_getElem hidx)
    simp only [drawLine]
    split_ifs
    · rw [lastWrite_append_none _ _ _ _ ?_]
      · exact hrunes
      · apply lastWrite_none
        intro c1 hc1
        have := (drawBlanks_calls sz.w y style _ c1 hc1).2.1
        rw [hcol] at this
        exact Or.inl (by omega)
    · exact hrunes

/-- Instance of C16: `"abcdefgh"` panned by `x = -2` on a screen of width 5 shows
`c` in column 0. -/
theorem drawLine_truncates_and_pans_witness :
    ∃ ch, "abcdefgh".toList[((0 : Int) - (-2)).toNat]? = some ch ∧
      lastWrite (drawLine ⟨5, 2⟩ (-2) 0 ⟨0⟩ "abcdefgh") 0 0 = some (ch, ⟨0⟩) ∧ ch = 'c' := by
  obtain ⟨ch, h1, h2⟩ :=
    (drawLine_truncates_and_pans ⟨5, 2⟩ (-2) 0 ⟨0⟩ "abcdefgh" (by decide) (by decide)).2 0
      (by decide) (by decide) (by decide)
  refine ⟨ch, h1, h2, ?_⟩
  have h3 : "abcdefgh".toList[((0 : Int) - (-2)).toNat]? = some 'c' := by decide
  rw [h3] at h1
  injection h1 with h1
  exact h1.symm

/-- C15 (the program departs from the claim).  `drawLine` with `w = 5`, `x = 0`
and the text `"abcd"` ends its first loop with `col = 4 = w - 1`, so the test
`col < w - 1` fails and no blank is written: column 4, which satisfies
`max(0, x + len) ≤ 4 < w`, is not touched.  In the program: a file with the lines
`"abcde"` and `"abcd"` on a 5 x 1 screen; the first frame draws `"abcde"`, `j`
scrolls to the second line, and after the second frame column 4 of row 0 still
holds `e` instead of a blank. -/
theorem drawLine_last_column_not_padded :
    drawLine ⟨5, 1⟩ 0 0 ⟨0⟩ "abcd"
        = [⟨0, 0, 'a', ⟨0⟩⟩, ⟨1, 0, 'b', ⟨0⟩⟩, ⟨2, 0, 'c', ⟨0⟩⟩, ⟨3, 0, 'd', ⟨0⟩⟩] ∧
      max 0 ((0 : Int) + ("abcd".toList.length : Int)) ≤ 4 ∧ (4 : Int) < 5 ∧
      lastWrite (drawLine ⟨5, 1⟩ 0 0 ⟨0⟩ "abcd") 4 0 = none ∧
      renderViewPort ⟨5, 1⟩ ⟨0⟩ (Session.start ["abcde", "abcd"]).buf
        = some (drawLine ⟨5, 1⟩ 0 0 ⟨0⟩ "abcde") ∧
      processKey ⟨5, 1⟩ ⟨.Rune, 'j'⟩ (Session.start ["abcde", "abcd"])
        = .next ((Session.start ["abcde", "abcd"]).setY 1) ∧
      renderViewPort ⟨5, 1⟩ ⟨0⟩ ((Session.start ["abcde", "abcd"]).setY 1).buf
        = some (drawLine ⟨5, 1⟩ 0 0 ⟨0⟩ "abcd") ∧
      lastWrite (drawLine ⟨5, 1⟩ 0 0 ⟨0⟩ "abcde" ++ drawLine ⟨5, 1⟩ 0 0 ⟨0⟩ "abcd") 4 0
        = some ('e', ⟨0⟩) := by
  refine ⟨?_, ?_, ?_, ?_, ?_, ?_, ?_, ?_⟩ <;> decide

/-! ## Single commands on 64-bit integers -/

theorem wrap64_of_isInt64 {v : Int} (h : IsInt64 v) : wrap64 v = v := by
  unfold wrap64
  unfold IsInt64 at h
  omega

theorem wrap64_isInt64 (v : Int) : IsInt64 (wrap64 v) := by
  unfold wrap64 IsInt64
  omega

theorem processKey64_j (sz : Size) (st : Session) :
    processKey64 sz ⟨.Rune, 'j'⟩ st =
      .next (st.setY (if wrap64 (wrap64 (st.buf.currentOffset.y + 1) + sz.h)
          ≥ (st.buf.lines.length : Int)
        then wrap64 ((st.buf.lines.length : Int) - sz.h)
        else wrap64 (st.buf.currentOffset.y + 1))) := rfl

theorem processKey64_J (sz : Size) (st : Session) :
    processKey64 sz ⟨.Rune, 'J'⟩ st =
      .next (st.setY (if wrap64 (wrap64 (st.buf.currentOffset.y + Int.tdiv sz.h 2) + sz.h)
          ≥ (st.buf.lines.length : Int)
        then wrap64 ((st.buf.lines.length : Int) - sz.h)
        else wrap64 (st.buf.currentOffset.y + Int.tdiv sz.h 2))) := rfl

theorem processKey64_ctrlD (sz : Size) (st : Session) (r : Char) (hr : r.toNat < 32) :
    processKey64 sz ⟨.CtrlD, r⟩ st =
      .next (st.setY (if wrap64 (wrap64 (st.buf.currentOffset.y + Int.tdiv sz.h 2) + sz.h)
          ≥ (st.buf.lines.length : Int)
        then wrap64 ((st.buf.lines.length : Int) - sz.h)
        else wrap64 (st.buf.currentOffset.y + Int.tdiv sz.h 2))) := by
  have hq : r ≠ 'q' := ctrl_rune_ne r hr _ (by decide)
  have h1 : r ≠ ' ' := ctrl_rune_ne r hr _ (by decide)
  have h2 : r ≠ 'b' := ctrl_rune_ne r hr _ (by decide)
  have h3 : r ≠ 'j' := ctrl_rune_ne r hr _ (by decide)
  have h4 : r ≠ 'k' := ctrl_rune_ne r hr _ (by decide)
  have h5 : r ≠ 'J' := ctrl_rune_ne r hr _ (by decide)
  simp [processKey64, isExitKey, ctrl_rune_toLower r hr, hq, h1, h2, h3, h4, h5]

theorem processKey64_k (sz : Size) (st : Session) :
    processKey64 sz ⟨.Rune, 'k'⟩ st =
      .next (st.setY (if wrap64 (st.buf.currentOffset.y - 1) < 0 then 0
        else wrap64 (st.buf.currentOffset.y - 1))) := rfl

theorem processKey64_b (sz : Size) (st : Session) :
    processKey64 sz ⟨.Rune, 'b'⟩ st =
      .next (st.setY (if wrap64 (st.buf.currentOffset.y - wrap64 (sz.h - 1)) < 0 then 0
        else wrap64 (st.buf.currentOffset.y - wrap64 (sz.h - 1)))) := rfl

theorem processKey64_K (sz : Size) (st : Session) :
    processKey64 sz ⟨.Rune, 'K'⟩ st =
      .next (st.setY (if wrap64 (st.buf.currentOffset.y - Int.tdiv sz.h 2) < 0 then 0
        else wrap64 (st.buf.currentOffset.y - Int.tdiv sz.h 2))) := rfl

theorem processKey64_ctrlU (sz : Size) (st : Session) (r : Char) (hr : r.toNat < 32) :
    processKey64 sz ⟨.CtrlU, r⟩ st =
      .next (st.setY (if wrap64 (st.buf.currentOffset.y - Int.tdiv sz.h 2) < 0 then 0
        else wrap64 (st.buf.currentOffset.y - Int.tdiv sz.h 2))) := by
  have hq : r ≠ 'q' := ctrl_rune_ne r hr _ (by decide)
  have h1 : r ≠ ' ' := ctrl_rune_ne r hr _ (by decide)
  have h2 : r ≠ 'b' := ctrl_rune_ne r hr _ (by decide)
  have h3 : r ≠ 'j' := ctrl_rune_ne r hr _ (by decide)
  have h4 : r ≠ 'k' := ctrl_rune_ne r hr _ (by decide)
  have h5 : r ≠ 'J' := ctrl_rune_ne r hr _ (by decide)
  have h6 : r ≠ 'K' := ctrl_rune_ne r hr _ (by decide)
  simp [processKey64, isExitKey, ctrl_rune_toLower r hr, hq, h1, h2, h3, h4, h5, h6]

theorem processKey64_g (sz : Size) (st : Session) :
    processKey64 sz ⟨.Rune, 'g'⟩ st = .next (st.setY 0) := rfl

theorem processKey64_h (sz : Size) (st : Session) :
    processKey64 sz ⟨.Rune, 'h'⟩ st =
      .next (st.setX (if wrap64 (st.buf.currentOffset.x + 1) > 0 then 0
        else wrap64 (st.buf.currentOffset.x + 1))) := rfl

theorem processKey64_H (sz : Size) (st : Session) :
    processKey64 sz ⟨.Rune, 'H'⟩ st =
      .next (st.setX (if wrap64 (st.buf.currentOffset.x + Int.tdiv sz.w 2) > 0 then 0
        else wrap64 (st.buf.currentOffset.x + Int.tdiv sz.w 2))) := rfl

/-- C3, the claim as stated fails on Go's 64-bit `int`: line-down at
`y = 2^63 - 10` with `h = 20` on a five-line file increments `y` to `2^63 - 9`,
the test `y + h >= len` is evaluated on the wrapped sum `-2^63 + 11` and is
false, so `y' = 2^63 - 9` and not `min(y + 1, N - h) = -15`. -/
theorem line_down_wraps_past_clamp :
    processKey64 ⟨80, 20⟩ ⟨.Rune, 'j'⟩ ((Session.start fiveLines).setY 9223372036854775798)
        = .next ((Session.start fiveLines).setY 9223372036854775799) ∧
      min ((9223372036854775798 : Int) + 1) ((fiveLines.length : Int) - 20) = -15 ∧
      (9223372036854775799 : Int) ≠ -15 ∧
      wrap64 (9223372036854775799 + 20) = -9223372036854775797 := by
  refine ⟨?_, ?_, ?_, ?_⟩ <;> decide

/-- C3, amended.  On Go's 64-bit `int`: whenever the sums the code forms (`y + 1`
and `y + 1 + h` for line-down, `y + h/2` and `y + h/2 + h` for half-page-down) and
`N - h` fit the 64-bit range, line-down (`j`) yields `y' = min(y + 1, N - h)` and
half-page-down (`J` and Ctrl-D) yields `y' = min(y + h/2, N - h)`, with `h/2`
truncated toward zero (the floor for `h ≥ 0`); in each case `y' + h ≤ N` and `x`
is unchanged. -/
theorem line_down_half_page_down_clamp (sz : Size) (st : Session) (r : Char)
    (hr : r.toNat < 32) (hN : IsInt64 ((st.buf.lines.length : Int) - sz.h)) :
    (IsInt64 (st.buf.currentOffset.y + 1) → IsInt64 (st.buf.currentOffset.y + 1 + sz.h) →
        ∃ st1, processKey64 sz ⟨.Rune, 'j'⟩ st = .next st1 ∧
          st1.buf.currentOffset.y
            = min (st.buf.currentOffset.y + 1) ((st.buf.lines.length : Int) - sz.h) ∧
          st1.buf.currentOffset.y + sz.h ≤ (st.buf.lines.length : Int) ∧
          st1.buf.currentOffset.x = st.buf.currentOffset.x) ∧
      (IsInt64 (st.buf.currentOffset.y + Int.tdiv sz.h 2) →
        IsInt64 (st.buf.currentOffset.y + Int.tdiv sz.h 2 + sz.h) →
        ∀ ev : EventKey, ev = ⟨.Rune, 'J'⟩ ∨ ev = ⟨.CtrlD, r⟩ →
          ∃ st1, processKey64 sz ev st = .next st1 ∧
            st1.buf.currentOffset.y
              = min (st.buf.currentOffset.y + Int.tdiv sz.h 2)
                  ((st.buf.lines.length : Int) - sz.h) ∧
            st1.buf.currentOffset.y + sz.h ≤ (st.buf.lines.length : Int) ∧
            st1.buf.currentOffset.x = st.buf.currentOffset.x) ∧
      (0 ≤ sz.h → Int.tdiv sz.h 2 = sz.h / 2) := by
  refine ⟨?_, ?_, fun h0 => Int.tdiv_eq_ediv h0 (by decide)⟩
  · intro h1 h2
    refine ⟨_, processKey64_j sz st, ?_, ?_, rfl⟩
    · simp only [Session.setY, wrap64_of_isInt64 h1, wrap64_of_isInt64 h2,
        wrap64_of_isInt64 hN]
      split <;> omega
    · simp only [Session.setY, wrap64_of_isInt64 h1, wrap64_of_isInt64 h2,
        wrap64_of_isInt64 hN]
      split <;> omega
  · intro h1 h2 ev hev
    have key : processKey64 sz ev st =
        .next (st.setY (if wrap64 (wrap64 (st.buf.currentOffset.y + Int.tdiv sz.h 2) + sz.h)
            ≥ (st.buf.lines.length : Int)
          then wrap64 ((st.buf.lines.length : Int) - sz.h)
          else wrap64 (st.buf.currentOffset.y + Int.tdiv sz.h 2))) := by
      rcases hev with h | h
      · rw [h]; exact processKey64_J sz st
      · rw [h]; exact processKey64_ctrlD sz st r hr
    refine ⟨_, key, ?_, ?_, rfl⟩
    · simp only [Session.setY, wrap64_of_isInt64 h1, wrap64_of_isInt64 h2,
        wrap64_of_isInt64 hN]
      split <;> omega
    · simp only [Session.setY, wrap64_of_isInt64 h1, wrap64_of_isInt64 h2,
        wrap64_of_isInt64 hN]
      split <;> omega

/-- Instance of the amended C3: Ctrl-D on a five-line file with `h = 4` moves `y`
from 0 to 1. -/
theorem line_down_half_page_down_clamp_witness :
    (Char.ofNat 4).toNat < 32 ∧
      ∃ st1, processKey64 ⟨80, 4⟩ ⟨.CtrlD, Char.ofNat 4⟩ (Session.start fiveLines)
          = .next st1 ∧ st1.buf.currentOffset.y = 1 :=
  ⟨by decide, by
    obtain ⟨st1, h1, h2, _, _⟩ :=
      (line_down_half_page_down_clamp ⟨80, 4⟩ (Session.start fiveLines) (Char.ofNat 4)
        (by decide) ⟨by decide, by decide⟩).2.1 ⟨by decide, by decide⟩
        ⟨by decide, by decide⟩ ⟨.CtrlD, Char.ofNat 4⟩ (Or.inr rfl)
    exact ⟨st1, h1, by rw [h2]; decide⟩⟩

/-- C5, the claim as stated fails on Go's 64-bit `int`: line-up at `y = -2^63`
decrements `y` to the wrapped value `2^63 - 1`, which is not negative, so it is
kept: `y' = 2^63 - 1` and not `max(y - 1, 0) = 0`. -/
theorem line_up_wraps_past_clamp :
    processKey64 ⟨80, 20⟩ ⟨.Rune, 'k'⟩
        ((Session.start fiveLines).setY (-9223372036854775808))
        = .next ((Session.start fiveLines).setY 9223372036854775807) ∧
      max ((-9223372036854775808 : Int) - 1) 0 = 0 ∧
      (9223372036854775807 : Int) ≠ 0 := by
  refine ⟨?_, ?_, ?_⟩ <;> decide

/-- C5, amended.  On Go's 64-bit `int`: whenever the differences the code forms
fit the 64-bit range (`y - 1` for line-up, `h - 1` and `y - (h - 1)` for page-up,
`y - h/2` for half-page-up), line-up (`k`) yields `max(y - 1, 0)`, page-up (`b`)
yields `max(y - (h - 1), 0)` and half-page-up (`K` and Ctrl-U) yields
`max(y - h/2, 0)`; go-to-top (`g`) always yields 0.  After each of them `0 ≤ y`,
and `x` is unchanged. -/
theorem upward_commands_clamp (sz : Size) (st : Session) (r : Char) (hr : r.toNat < 32) :
    (IsInt64 (st.buf.currentOffset.y - 1) →
        ∃ st1, processKey64 sz ⟨.Rune, 'k'⟩ st = .next st1 ∧
          st1.buf.currentOffset.y = max (st.buf.currentOffset.y - 1) 0 ∧
          0 ≤ st1.buf.currentOffset.y ∧
          st1.buf.currentOffset.x = st.buf.currentOffset.x) ∧
      (IsInt64 (sz.h - 1) → IsInt64 (st.buf.currentOffset.y - (sz.h - 1)) →
        ∃ st1, processKey64 sz ⟨.Rune, 'b'⟩ st = .next st1 ∧
          st1.buf.currentOffset.y = max (st.buf.currentOffset.y - (sz.h - 1)) 0 ∧
          0 ≤ st1.buf.currentOffset.y ∧
          st1.buf.currentOffset.x = st.buf.currentOffset.x) ∧
      (IsInt64 (st.buf.currentOffset.y - Int.tdiv sz.h 2) →
        ∀ ev : EventKey, ev = ⟨.Rune, 'K'⟩ ∨ ev = ⟨.CtrlU, r⟩ →
          ∃ st1, processKey64 sz ev st = .next st1 ∧
            st1.buf.currentOffset.y = max (st.buf.currentOffset.y - Int.tdiv sz.h 2) 0 ∧
            0 ≤ st1.buf.currentOffset.y ∧
            st1.buf.currentOffset.x = st.buf.currentOffset.x) ∧
      (∃ st1, processKey64 sz ⟨.Rune, 'g'⟩ st = .next st1 ∧
        st1.buf.currentOffset.y = 0 ∧
        st1.buf.currentOffset.x = st.buf.currentOffset.x) := by
  refine ⟨?_, ?_, ?_, ⟨_, processKey64_g sz st, rfl, rfl⟩⟩
  · intro h1
    refine ⟨_, processKey64_k sz st, ?_, ?_, rfl⟩
    · simp only [Session.setY, wrap64_of_isInt64 h1]
      split <;> omega
    · simp only [Session.setY, wrap64_of_isInt64 h1]
      split <;> omega
  · intro h1 h2
    refine ⟨_, processKey64_b sz st, ?_, ?_, rfl⟩
    · simp only [Session.setY, wrap64_of_isInt64 h1, wrap64_of_isInt64 h2]
      split <;> omega
    · simp only [Session.setY, wrap64_of_isInt64 h1, wrap64_of_isInt64 h2]
      split <;> omega
  · intro h1 ev hev
    have key : processKey64 sz ev st =
        .next (st.setY (if wrap64 (st.buf.currentOffset.y - Int.tdiv sz.h 2) < 0 then 0
          else wrap64 (st.buf.currentOffset.y - Int.tdiv sz.h 2))) := by
      rcases hev with h | h
      · rw [h]; exact processKey64_K sz st
      · rw [h]; exact processKey64_ctrlU sz st r hr
    refine ⟨_, key, ?_, ?_, rfl⟩
    · simp only [Session.setY, wrap64_of_isInt64 h1]
      split <;> omega
    · simp only [Session.setY, wrap64_of_isInt64 h1]
      split <;> omega

/-- Instance of the amended C5: Ctrl-U with `h = 4` from `y = 1` clamps to 0. -/
theorem upward_commands_clamp_witness :
    (Char.ofNat 21).toNat < 32 ∧
      ∃ st1, processKey64 ⟨80, 4⟩ ⟨.CtrlU, Char.ofNat 21⟩ ((Session.start fiveLines).setY 1)
          = .next st1 ∧ st1.buf.currentOffset.y = 0 :=
  ⟨by decide, by
    obtain ⟨st1, h1, h2, _, _⟩ :=
      (upward_commands_clamp ⟨80, 4⟩ ((Session.start fiveLines).setY 1) (Char.ofNat 21)
        (by decide)).2.2.1 ⟨by decide, by decide⟩ ⟨.CtrlU, Char.ofNat 21⟩ (Or.inr rfl)
    exact ⟨st1, h1, by rw [h2]; decide⟩⟩

theorem ite_congr_branches {α : Type} {c : Prop} [Decidable c] {a a1 b b1 : α}
    (ha : a = a1) (hb : b = b1) : (if c then a else b) = (if c then a1 else b1) := by
  rw [ha, hb]

/-! ## Horizontal navigation on 64-bit integers -/

theorem nextMark64_buf (st : Session) : (nextMark64 st).buf = st.buf := by
  simp only [nextMark64]
  split_ifs <;> rfl

theorem nextMark64_marks (st : Session) : (nextMark64 st).marks = st.marks := by
  simp only [nextMark64]
  split_ifs <;> rfl

theorem prevMark64_buf (st : Session) : (prevMark64 st).buf = st.buf := by
  simp only [prevMark64]
  split_ifs <;> rfl

theorem prevMark64_marks (st : Session) : (prevMark64 st).marks = st.marks := by
  simp only [prevMark64]
  split_ifs <;> rfl

/-- Case analysis of `processKey64` by the shape of the result: the vertical
branches are not told apart. -/
theorem processKey64_cases (P : Outcome → Prop) (sz : Size) (ev : EventKey) (st : Session)
    (hquit : P .quit) (hsame : P (.next st))
    (hY : ∀ v, P (.next (st.setY v)))
    (hh : P (.next (st.setX (if wrap64 (st.buf.currentOffset.x + 1) > 0 then 0
      else wrap64 (st.buf.currentOffset.x + 1)))))
    (hl : P (.next (st.setX (wrap64 (st.buf.currentOffset.x - 1)))))
    (hH : P (.next (st.setX (if wrap64 (st.buf.currentOffset.x + Int.tdiv sz.w 2) > 0 then 0
      else wrap64 (st.buf.currentOffset.x + Int.tdiv sz.w 2)))))
    (hL : P (.next (st.setX (wrap64 (st.buf.currentOffset.x - Int.tdiv sz.w 2)))))
    (h0 : P (.next (st.setX 0)))
    (hm : P (.next (nextMark64 { st with marks := st.marks ++ [⟨st.buf.currentOffset, ""⟩] })))
    (hn : P (jumpToMark (nextMark64 st))) (hp : P (jumpToMark (prevMark64 st))) :
    P (processKey64 sz ev st) := by
  unfold processKey64
  dsimp only
  exact ite_elim P hquit (ite_elim P hsame (ite_elim P (hY _) (ite_elim P (hY _)
    (ite_elim P (hY _) (ite_elim P (hY _) (ite_elim P (hY _) (ite_elim P (hY _)
    (ite_elim P (hY _) (ite_elim P (hY _) (ite_elim P hh (ite_elim P hl
    (ite_elim P hH (ite_elim P hL (ite_elim P h0 (ite_elim P (hY _)
    (ite_elim P (hY _) (ite_elim P hm (ite_elim P hn (ite_elim P hp hsame)))))))))))))))))))

theorem processKey64_pan (sz : Size) (ev : EventKey) (st : Session) (W B : Int)
    (hw0 : 0 ≤ sz.w) (hw1 : sz.w ≤ W) (hB : B + (W + 1) ≤ 9223372036854775808)
    (hx0 : -B ≤ st.buf.currentOffset.x) (hx : st.buf.currentOffset.x ≤ 0)
    (hm : ∀ m ∈ st.marks, -B ≤ m.coords.x ∧ m.coords.x ≤ 0) :
    ∀ st1, processKey64 sz ev st = .next st1 →
      (-(B + (W + 1)) ≤ st1.buf.currentOffset.x ∧ st1.buf.currentOffset.x ≤ 0) ∧
        ∀ m ∈ st1.marks, -(B + (W + 1)) ≤ m.coords.x ∧ m.coords.x ≤ 0 := by
  have hd0 : 0 ≤ Int.tdiv sz.w 2 := Int.tdiv_nonneg hw0 (by decide)
  have hd1 : Int.tdiv sz.w 2 ≤ sz.w := by
    rw [Int.tdiv_eq_ediv hw0 (by decide)]
    omega
  have hm1 : ∀ m ∈ st.marks, -(B + (W + 1)) ≤ m.coords.x ∧ m.coords.x ≤ 0 := by
    intro m hmem
    have := hm m hmem
    omega
  have hset : ∀ st0 : Session, -(B + (W + 1)) ≤ st0.buf.currentOffset.x →
      st0.buf.currentOffset.x ≤ 0 → st0.marks = st.marks →
      ∀ st1, Outcome.next st0 = .next st1 →
        (-(B + (W + 1)) ≤ st1.buf.currentOffset.x ∧ st1.buf.currentOffset.x ≤ 0) ∧
          ∀ m ∈ st1.marks, -(B + (W + 1)) ≤ m.coords.x ∧ m.coords.x ≤ 0 := by
    intro st0 h0 h1 hm0 st1 h
    injection h with h
    subst h
    exact ⟨⟨h0, h1⟩, by rw [hm0]; exact hm1⟩
  have hjump : ∀ st0 : Session, st0.buf = st.buf → st0.marks = st.marks →
      ∀ st1, jumpToMark st0 = .next st1 →
        (-(B + (W + 1)) ≤ st1.buf.currentOffset.x ∧ st1.buf.currentOffset.x ≤ 0) ∧
          ∀ m ∈ st1.marks, -(B + (W + 1)) ≤ m.coords.x ∧ m.coords.x ≤ 0 := by
    intro st0 hb0 hm0 st1 h
    obtain ⟨h1, _, _, h4⟩ := jumpToMark_next h
    refine ⟨?_, by rw [h1, hm0]; exact hm1⟩
    rcases h4 with h4 | ⟨m, hmem, h4⟩
    · rw [h4, hb0]; omega
    · rw [h4]; exact hm1 m (hm0 ▸ hmem)
  refine processKey64_cases
    (fun o => ∀ st1, o = .next st1 →
      (-(B + (W + 1)) ≤ st1.buf.currentOffset.x ∧ st1.buf.currentOffset.x ≤ 0) ∧
        ∀ m ∈ st1.marks, -(B + (W + 1)) ≤ m.coords.x ∧ m.coords.x ≤ 0) sz ev st
    ?_ ?_ ?_ ?_ ?_ ?_ ?_ ?_ ?_ ?_ ?_
  · intro st1 h; exact absurd h (by simp)
  · exact hset st (by omega) hx rfl
  · intro v; exact hset _ (by simp only [Session.setY]; omega) hx rfl
  · have e : wrap64 (st.buf.currentOffset.x + 1) = st.buf.currentOffset.x + 1 :=
      wrap64_of_isInt64 ⟨by omega, by omega⟩
    refine hset _ ?_ ?_ rfl <;> simp only [Session.setX, e] <;> split <;> omega
  · have e : wrap64 (st.buf.currentOffset.x - 1) = st.buf.currentOffset.x - 1 :=
      wrap64_of_isInt64 ⟨by omega, by omega⟩
    refine hset _ ?_ ?_ rfl <;> simp only [Session.setX, e] <;> omega
  · have e : wrap64 (st.buf.currentOffset.x + Int.tdiv sz.w 2)
        = st.buf.currentOffset.x + Int.tdiv sz.w 2 :=
      wrap64_of_isInt64 ⟨by omega, by omega⟩
    refine hset _ ?_ ?_ rfl <;> simp only [Session.setX, e] <;> split <;> omega
  · have e : wrap64 (st.buf.currentOffset.x - Int.tdiv sz.w 2)
        = st.buf.currentOffset.x - Int.tdiv sz.w 2 :=
      wrap64_of_isInt64 ⟨by omega, by omega⟩
    refine hset _ ?_ ?_ rfl <;> simp only [Session.setX, e] <;> omega
  · refine hset _ ?_ ?_ rfl <;> simp only [Session.setX] <;> omega
  · intro st1 h
    injection h with h
    subst h
    rw [nextMark64_buf, nextMark64_marks]
    have hx1 : -(B + (W + 1)) ≤ st.buf.currentOffset.x := by omega
    refine ⟨⟨hx1, hx⟩, ?_⟩
    intro m hmem
    rcases List.mem_append.1 hmem with h1 | h1
    · exact hm1 m h1
    · rw [List.mem_singleton.1 h1]; exact ⟨hx1, hx⟩
  · exact hjump _ (nextMark64_buf st) (nextMark64_marks st)
  · exact hjump _ (prevMark64_buf st) (prevMark64_marks st)

theorem processEvent64_pan (sz : Size) (ev : Event) (st : Session) (W B : Int)
    (hw0 : 0 ≤ sz.w) (hw1 : sz.w ≤ W) (hB : B + (W + 1) ≤ 9223372036854775808)
    (hx0 : -B ≤ st.buf.currentOffset.x) (hx : st.buf.currentOffset.x ≤ 0)
    (hm : ∀ m ∈ st.marks, -B ≤ m.coords.x ∧ m.coords.x ≤ 0) :
    ∀ st1, processEvent64 sz ev st = .next st1 →
      (-(B + (W + 1)) ≤ st1.buf.currentOffset.x ∧ st1.buf.currentOffset.x ≤ 0) ∧
        ∀ m ∈ st1.marks, -(B + (W + 1)) ≤ m.coords.x ∧ m.coords.x ≤ 0 := by
  have hsame : ∀ st1, Outcome.next st = .next st1 →
      (-(B + (W + 1)) ≤ st1.buf.currentOffset.x ∧ st1.buf.currentOffset.x ≤ 0) ∧
        ∀ m ∈ st1.marks, -(B + (W + 1)) ≤ m.coords.x ∧ m.coords.x ≤ 0 := by
    intro st1 h
    injection h with h
    subst h
    refine ⟨⟨by omega, hx⟩, ?_⟩
    intro m hmem
    have := hm m hmem
    omega
  cases ev with
  | resize => exact hsame
  | key k => exact processKey64_pan sz k st W B hw0 hw1 hB hx0 hx hm
  | other => exact hsame

theorem runEvents64_pan (W : Int) (evs : List (Size × Event)) :
    ∀ (st : Session) (B : Int), 0 ≤ B → (∀ e ∈ evs, 0 ≤ e.1.w ∧ e.1.w ≤ W) →
      B + (evs.length : Int) * (W + 1) ≤ 9223372036854775808 →
      -B ≤ st.buf.currentOffset.x → st.buf.currentOffset.x ≤ 0 →
      (∀ m ∈ st.marks, -B ≤ m.coords.x ∧ m.coords.x ≤ 0) →
      ∀ st1, runEvents64 st evs = .next st1 →
        st1.buf.currentOffset.x ≤ 0 ∧ ∀ m ∈ st1.marks, m.coords.x ≤ 0 := by
  induction evs with
  | nil =>
    intro st B _ _ _ _ hx hm st1 h
    simp only [runEvents64] at h
    injection h with h
    subst h
    exact ⟨hx, fun m hmem => (hm m hmem).2⟩
  | cons e es ih =>
    intro st B hB0 hw hbud hx0 hx hm st1 h
    simp only [runEvents64] at h
    obtain ⟨hw0, hw1⟩ := hw e (List.mem_cons_self e es)
    have hW : 0 ≤ W := by omega
    have hrest : 0 ≤ (es.length : Int) * (W + 1) :=
      mul_nonneg (Int.ofNat_nonneg _) (by omega)
    have hsplit : (((e :: es).length : Nat) : Int) * (W + 1)
        = (es.length : Int) * (W + 1) + (W + 1) := by
      simp only [List.length_cons, Nat.cast_add, Nat.cast_one]
      ring
    rw [hsplit] at hbud
    cases hp : processEvent64 e.1 e.2 st with
    | next st2 =>
      rw [hp] at h
      obtain ⟨⟨a0, a1⟩, am⟩ :=
        processEvent64_pan e.1 e.2 st W B hw0 hw1 (by omega) hx0 hx hm st2 hp
      exact ih st2 (B + (W + 1)) (by omega)
        (fun e1 he1 => hw e1 (List.mem_cons_of_mem e he1)) (by omega) a0 a1 am st1 h
    | quit => rw [hp] at h; exact absurd h (by simp)
    | crash => rw [hp] at h; exact absurd h (by simp)

theorem runEvents64_pan_right (evs : List (Size × Event)) (st : Session)
    (hw : ∀ e ∈ evs, 0 ≤ e.1.w ∧ IsInt64 e.1.w) (hx : st.buf.currentOffset.x = 0)
    (hev : ∀ e ∈ evs, e.2 = .key ⟨.Rune, 'h'⟩ ∨ e.2 = .key ⟨.Rune, 'H'⟩) :
    runEvents64 st evs = .next st := by
  induction evs with
  | nil => rfl
  | cons e es ih =>
    have hstep : processEvent64 e.1 e.2 st = .next st := by
      obtain ⟨hw0, hw1⟩ := hw e (List.mem_cons_self e es)
      have hd0 : 0 ≤ Int.tdiv e.1.w 2 := Int.tdiv_nonneg hw0 (by decide)
      have hd1 : Int.tdiv e.1.w 2 ≤ e.1.w := by
        rw [Int.tdiv_eq_ediv hw0 (by decide)]
        omega
      unfold IsInt64 at hw1
      rcases hev e (List.mem_cons_self e es) with h | h
      · rw [h]
        show processKey64 e.1 ⟨.Rune, 'h'⟩ st = .next st
        rw [processKey64_h, hx]
        have e1 : wrap64 (0 + 1) = 1 := by decide
        rw [e1]
        simp only [gt_iff_lt, zero_lt_one, if_true]
        rw [setX_self st hx]
      · rw [h]
        show processKey64 e.1 ⟨.Rune, 'H'⟩ st = .next st
        rw [processKey64_H, hx]
        have e1 : wrap64 (0 + Int.tdiv e.1.w 2) = 0 + Int.tdiv e.1.w 2 :=
          wrap64_of_isInt64 ⟨by omega, by omega⟩
        rw [e1]
        have : (if 0 + Int.tdiv e.1.w 2 > 0 then (0 : Int) else 0 + Int.tdiv e.1.w 2) = 0 := by
          split <;> omega
        rw [this, setX_self st hx]
    simp only [runEvents64, hstep]
    exact ih (fun e1 he1 => hw e1 (List.mem_cons_of_mem e he1))
      (fun e1 he1 => hev e1 (List.mem_cons_of_mem e he1))

/-- C8, the claim as stated fails on Go's 64-bit `int`: pan-left and
half-pan-left have no lower clamp, so three half-pan-left commands (`L`) at width
`w = 2^63 - 1` (which is `≥ 0`) take `x` from 0 through `-(2^62 - 1)` and
`-(2^63 - 2)` to the wrapped value `2^62 + 3`, which is positive. -/
theorem half_pan_left_wraps_positive :
    runEvents64 (Session.start fiveLines)
        [(⟨9223372036854775807, 20⟩, .key ⟨.Rune, 'L'⟩),
          (⟨9223372036854775807, 20⟩, .key ⟨.Rune, 'L'⟩),
          (⟨9223372036854775807, 20⟩, .key ⟨.Rune, 'L'⟩)]
        = .next ((Session.start fiveLines).setX 4611686018427387907) ∧
      ¬ (((Session.start fiveLines).setX 4611686018427387907).buf.currentOffset.x ≤ 0) ∧
      (0 : Int) ≤ 9223372036854775807 := by
  refine ⟨?_, ?_, ?_⟩ <;> decide

/-- C8, amended.  On Go's 64-bit `int`: from the initial state, under any sequence
of `n` events handled with screen widths `0 ≤ w ≤ W` where `n * (W + 1) ≤ 2^63`
(so that pan-left and half-pan-left cannot underflow the offset), the horizontal
offset and the `x` of every stored mark stay `≤ 0`, so a jump to a mark keeps
`x ≤ 0` as well; and from any state with `x = 0`, any number of pan-right (`h`)
and half-pan-right (`H`) commands at widths `w ≥ 0` leaves the state, hence
`x = 0`, as it was. -/
theorem horizontal_offset_never_positive (lines : List String) (evs : List (Size × Event))
    (W : Int) (hw : ∀ e ∈ evs, 0 ≤ e.1.w ∧ e.1.w ≤ W)
    (hbud : (evs.length : Int) * (W + 1) ≤ 9223372036854775808) :
    (∀ st, runEvents64 (Session.start lines) evs = .next st →
        st.buf.currentOffset.x ≤ 0 ∧ ∀ m ∈ st.marks, m.coords.x ≤ 0) ∧
      (∀ st0 : Session, st0.buf.currentOffset.x = 0 → (∀ e ∈ evs, IsInt64 e.1.w) →
        (∀ e ∈ evs, e.2 = .key ⟨.Rune, 'h'⟩ ∨ e.2 = .key ⟨.Rune, 'H'⟩) →
        runEvents64 st0 evs = .next st0) :=
  ⟨runEvents64_pan W evs (Session.start lines) 0 (le_refl _) hw (by omega) (le_refl _)
      (le_refl _) (fun _ hm => absurd hm (by simp [Session.start])),
    fun st0 hx hi hev =>
      runEvents64_pan_right evs st0 (fun e he => ⟨(hw e he).1, hi e he⟩) hx hev⟩

/-- Instance of the amended C8: pan-left, set-mark, half-pan-right, jump to the
mark, at width 10. -/
theorem horizontal_offset_never_positive_witness :
    (∀ e ∈ [((⟨10, 4⟩ : Size), Event.key ⟨.Rune, 'l'⟩), (⟨10, 4⟩, .key ⟨.Rune, 'm'⟩),
        (⟨10, 4⟩, .key ⟨.Rune, 'H'⟩), (⟨10, 4⟩, .key ⟨.Rune, 'n'⟩)],
        0 ≤ e.1.w ∧ e.1.w ≤ 10) ∧
      ∃ st, runEvents64 (Session.start fiveLines)
          [(⟨10, 4⟩, .key ⟨.Rune, 'l'⟩), (⟨10, 4⟩, .key ⟨.Rune, 'm'⟩),
            (⟨10, 4⟩, .key ⟨.Rune, 'H'⟩), (⟨10, 4⟩, .key ⟨.Rune, 'n'⟩)] = .next st ∧
        st.buf.currentOffset.x = -1 ∧ st.buf.currentOffset.x ≤ 0 :=
  ⟨by decide,
    ⟨{ buf := { currentOffset := ⟨-1, 0⟩, lines := fiveLines },
       marks := [⟨⟨-1, 0⟩, ""⟩], currentMark := 0 },
      by decide, rfl,
      ((horizontal_offset_never_positive fiveLines
        [(⟨10, 4⟩, .key ⟨.Rune, 'l'⟩), (⟨10, 4⟩, .key ⟨.Rune, 'm'⟩),
          (⟨10, 4⟩, .key ⟨.Rune, 'H'⟩), (⟨10, 4⟩, .key ⟨.Rune, 'n'⟩)] 10 (by decide)
        (by decide)).1 _ (by decide)).1⟩⟩

/-! ## Setting marks with navigation in between, then cycling -/

theorem processKey_cursor_at_end (sz : Size) (ev : EventKey) (st : Session)
    (hc : st.currentMark = (st.marks.length : Int) - 1)
    (hn : ev.rune ≠ 'n') (hp : ev.rune ≠ 'p') :
    ∀ st1, processKey sz ev st = .next st1 →
      st1.currentMark = (st1.marks.length : Int) - 1 := by
  have hset : ∀ st0 : Session, st0.currentMark = st.currentMark → st0.marks = st.marks →
      ∀ st1, Outcome.next st0 = .next st1 →
        st1.currentMark = (st1.marks.length : Int) - 1 := by
    intro st0 h1 h2 st1 h
    injection h with h
    subst h
    rw [h1, h2]
    exact hc
  refine processKey_cases_guarded
    (fun o => ∀ st1, o = .next st1 → st1.currentMark = (st1.marks.length : Int) - 1)
    sz ev st ?_ ?_ ?_ ?_ ?_ ?_ ?_ ?_ ?_ ?_ ?_ ?_ ?_ ?_ ?_ ?_ ?_ ?_
  · intro _ st1 h; exact absurd h (by simp)
  · exact hset st rfl rfl
  · intro _; exact hset _ rfl rfl
  · intro _; exact hset _ rfl rfl
  · intro _; exact hset _ rfl rfl
  · intro _; exact hset _ rfl rfl
  · intro _; exact hset _ rfl rfl
  · intro _; exact hset _ rfl rfl
  · intro _; exact hset _ rfl rfl
  · intro _; exact hset _ rfl rfl
  · intro _; exact hset _ rfl rfl
  · intro _; exact hset _ rfl rfl
  · intro _; exact hset _ rfl rfl
  · intro _; exact hset _ rfl rfl
  · intro _; exact hset _ rfl rfl
  · intro _ st1 h
    injection h with h
    subst h
    rw [nextMark_currentMark, nextMark_marks]
    simp only [List.length_append, List.length_singleton, Nat.cast_add, Nat.cast_one]
    split_ifs
    all_goals first
      | contradiction
      | omega
  · intro h; exact absurd h hn
  · intro h; exact absurd h hp

theorem runEvents_cursor_at_end (evs : List (Size × Event)) :
    ∀ st st1 : Session,
      (∀ e ∈ evs, ∀ k, e.2 = .key k → k.rune ≠ 'n' ∧ k.rune ≠ 'p') →
      st.currentMark = (st.marks.length : Int) - 1 →
      runEvents st evs = .next st1 →
      st1.currentMark = (st1.marks.length : Int) - 1 := by
  induction evs with
  | nil =>
    intro st st1 _ hc h
    simp only [runEvents] at h
    injection h with h
    subst h
    exact hc
  | cons e es ih =>
    intro st st1 hev hc h
    simp only [runEvents] at h
    cases hp : processEvent e.1 e.2 st with
    | next st2 =>
      rw [hp] at h
      have hc2 : st2.currentMark = (st2.marks.length : Int) - 1 := by
        cases he : e.2 with
        | resize =>
          rw [he] at hp
          injection hp with hp
          subst hp
          exact hc
        | key k =>
          rw [he] at hp
          obtain ⟨hn, hpp⟩ := hev e (List.mem_cons_self e es) k he
          exact processKey_cursor_at_end e.1 k st hc hn hpp st2 hp
        | other =>
          rw [he] at hp
          injection hp with hp
          subst hp
          exact hc
      exact ih st2 st1 (fun e1 he1 => hev e1 (List.mem_cons_of_mem e he1)) hc2 h
    | quit => rw [hp] at h; exact absurd h (by simp)
    | crash => rw [hp] at h; exact absurd h (by simp)

theorem runEvents_noMark_marks (evs : List (Size × Event)) :
    ∀ st st1 : Session, (∀ e ∈ evs, ∀ k, e.2 = .key k → k.rune ≠ 'm') →
      runEvents st evs = .next st1 → st1.marks = st.marks := by
  induction evs with
  | nil =>
    intro st st1 _ h
    simp only [runEvents] at h
    injection h with h
    subst h
    rfl
  | cons e es ih =>
    intro st st1 hev h
    simp only [runEvents] at h
    cases hp : processEvent e.1 e.2 st with
    | next st2 =>
      rw [hp] at h
      have hm2 : st2.marks = st.marks := by
        cases he : e.2 with
        | resize =>
          rw [he] at hp
          injection hp with hp
          subst hp
          rfl
        | key k =>
          rw [he] at hp
          rcases processKey_marks e.1 k st st2 hp with h1 | ⟨h1, _⟩
          · exact h1
          · exact absurd h1 (hev e (List.mem_cons_self e es) k he)
        | other =>
          rw [he] at hp
          injection hp with hp
          subst hp
          rfl
      rw [← hm2]
      exact ih st2 st1 (fun e1 he1 => hev e1 (List.mem_cons_of_mem e he1)) h
    | quit => rw [hp] at h; exact absurd h (by simp)
    | crash => rw [hp] at h; exact absurd h (by simp)

theorem runEvents_count_marks (evs : List (Size × Event)) :
    ∀ st st1 : Session,
      (∀ e ∈ evs, e.2 = .key ⟨.Rune, 'm'⟩ ∨ ∀ k, e.2 = .key k → k.rune ≠ 'm') →
      runEvents st evs = .next st1 →
      st1.marks.length
        = st.marks.length + evs.countP (fun e => decide (e.2 = Event.key ⟨.Rune, 'm'⟩)) := by
  induction evs with
  | nil =>
    intro st st1 _ h
    simp only [runEvents] at h
    injection h with h
    subst h
    simp only [List.countP_nil, add_zero]
  | cons e es ih =>
    intro st st1 hev h
    simp only [runEvents] at h
    cases hp : processEvent e.1 e.2 st with
    | next st2 =>
      rw [hp] at h
      have hrest := ih st2 st1 (fun e1 he1 => hev e1 (List.mem_cons_of_mem e he1)) h
      rcases hev e (List.mem_cons_self e es) with hm | hno
      · have hm2 : st2.marks = st.marks ++ [⟨st.buf.currentOffset, ""⟩] := by
          rw [hm] at hp
          have hp2 : processKey e.1 ⟨.Rune, 'm'⟩ st = .next st2 := hp
          rw [processKey_m] at hp2
          injection hp2 with hp2
          rw [← hp2, nextMark_marks]
        rw [hrest, hm2, List.countP_cons_of_pos _ _ (by simp only [hm, decide_True])]
        simp only [List.length_append, List.length_singleton]
        omega
      · have hm2 : st2.marks = st.marks := by
          cases he : e.2 with
          | resize =>
            rw [he] at hp
            injection hp with hp
            subst hp
            rfl
          | key k =>
            rw [he] at hp
            rcases processKey_marks e.1 k st st2 hp with h1 | ⟨h1, _⟩
            · exact h1
            · exact absurd h1 (hno k he)
          | other =>
            rw [he] at hp
            injection hp with hp
            subst hp
            rfl
        have hneg : ¬ (decide (e.2 = Event.key ⟨.Rune, 'm'⟩) = true) := by
          intro hd
          have he := of_decide_eq_true hd
          exact hno ⟨.Rune, 'm'⟩ he rfl
        rw [hrest, hm2, List.countP_cons]
        simp only [hneg, Bool.false_eq_true, if_false, add_zero]
    | quit => rw [hp] at h; exact absurd h (by simp)
    | crash => rw [hp] at h; exact absurd h (by simp)

theorem markAt_append_last (marks : List Mark) (m : Mark) (i : Int)
    (hi : i = ((marks ++ [m]).length : Int) - 1) : markAt (marks ++ [m]) i = some m := by
  have h0 : i = (marks.length : Int) := by
    rw [hi]
    simp only [List.length_append, List.length_singleton, Nat.cast_add, Nat.cast_one]
    omega
  unfold markAt
  rw [if_pos (by omega)]
  have h1 : i.toNat = marks.length := by omega
  rw [h1]
  simp

theorem markAt_of_prefix {a b : List Mark} (h : a <+: b) (i : Int) (m : Mark)
    (ha : markAt a i = some m) : markAt b i = some m := by
  obtain ⟨t, rfl⟩ := h
  unfold markAt at ha ⊢
  split_ifs at ha ⊢
  have hlt : i.toNat < a.length := by
    by_contra hge
    rw [List.getElem?_eq_none (by omega)] at ha
    exact absurd ha (by simp)
  rw [List.getElem?_append_left hlt]
  exact ha

theorem runEvents_setMark_split (pre post : List (Size × Event)) (sz : Size)
    (st0 stp st1 : Session) (hpre : runEvents st0 pre = .next stp)
    (hrun : runEvents st0 (pre ++ (sz, Event.key ⟨.Rune, 'm'⟩) :: post) = .next st1) :
    runEvents (nextMark { stp with marks := stp.marks ++ [⟨stp.buf.currentOffset, ""⟩] }) post
      = .next st1 := by
  rw [runEvents_append pre _ st0 stp hpre] at hrun
  simp only [runEvents] at hrun
  have hstep : processEvent sz (Event.key ⟨.Rune, 'm'⟩) stp
      = .next (nextMark { stp with marks := stp.marks ++ [⟨stp.buf.currentOffset, ""⟩] }) :=
    processKey_m sz stp
  rw [hstep] at hrun
  exact hrun

/-- C12, the claim as stated fails: on a five-line file with screen height 2,
three set-mark commands at `(0,0)`, `(0,1)` and `(0,2)` (a line-down between
them) followed by three `n` commands leave the cursor on 2, the last mark, not
on 0, and the offset at `(0,2)`, the last mark's coordinates, not at the first
mark's `(0,0)`; the first mark and its coordinates are reached after the first
`n` command. -/
theorem three_marks_three_nexts_cursor :
    runEvents (Session.start fiveLines)
        [(⟨10, 2⟩, .key ⟨.Rune, 'm'⟩), (⟨10, 2⟩, .key ⟨.Rune, 'j'⟩),
          (⟨10, 2⟩, .key ⟨.Rune, 'm'⟩), (⟨10, 2⟩, .key ⟨.Rune, 'j'⟩),
          (⟨10, 2⟩, .key ⟨.Rune, 'm'⟩), (⟨10, 2⟩, .key ⟨.Rune, 'n'⟩),
          (⟨10, 2⟩, .key ⟨.Rune, 'n'⟩), (⟨10, 2⟩, .key ⟨.Rune, 'n'⟩)]
      = .next { buf := { currentOffset := ⟨0, 2⟩, lines := fiveLines },
                marks := [⟨⟨0, 0⟩, ""⟩, ⟨⟨0, 1⟩, ""⟩, ⟨⟨0, 2⟩, ""⟩], currentMark := 2 } ∧
      (2 : Int) ≠ 0 ∧ (⟨0, 2⟩ : Coords) ≠ ⟨0, 0⟩ ∧
      runEvents (Session.start fiveLines)
        [(⟨10, 2⟩, .key ⟨.Rune, 'm'⟩), (⟨10, 2⟩, .key ⟨.Rune, 'j'⟩),
          (⟨10, 2⟩, .key ⟨.Rune, 'm'⟩), (⟨10, 2⟩, .key ⟨.Rune, 'j'⟩),
          (⟨10, 2⟩, .key ⟨.Rune, 'm'⟩), (⟨10, 2⟩, .key ⟨.Rune, 'n'⟩)]
      = .next { buf := { currentOffset := ⟨0, 0⟩, lines := fiveLines },
                marks := [⟨⟨0, 0⟩, ""⟩, ⟨⟨0, 1⟩, ""⟩, ⟨⟨0, 2⟩, ""⟩], currentMark := 0 } := by
  refine ⟨?_, ?_, ?_, ?_⟩ <;> decide

/-- C12, amended.  Start from an empty ring (cursor -1) and run any sequence of
set-mark commands (`m`) and of commands that are neither `m`, `n` nor `p`, with
`k ≥ 1` set-marks among them, followed by `k` `n` commands.  After the set-marks
the ring holds `k` marks and the cursor is on the last one, index `k - 1`; after
the `k` `n` commands the cursor is back on index `k - 1` and the jump has set the
offset to the coordinates of that mark, which are the offset that was current
when the last set-mark was issued, whatever navigation followed it; the cursor
is on the first mark, index 0, after the first `n` command, whose jump sets the
offset to the coordinates current when the first set-mark was issued. -/
theorem marks_then_nexts_cycle (st0 st1 : Session) (evs ns : List (Size × Event))
    (hm0 : st0.marks = []) (hc0 : st0.currentMark = -1)
    (hev : ∀ e ∈ evs, e.2 = .key ⟨.Rune, 'm'⟩ ∨
      ∀ k, e.2 = .key k → k.rune ≠ 'm' ∧ k.rune ≠ 'n' ∧ k.rune ≠ 'p')
    (hrun : runEvents st0 evs = .next st1)
    (hk : 1 ≤ evs.countP (fun e => decide (e.2 = Event.key ⟨.Rune, 'm'⟩)))
    (hns : ∀ e ∈ ns, e.2 = .key ⟨.Rune, 'n'⟩)
    (hlen : ns.length = evs.countP (fun e => decide (e.2 = Event.key ⟨.Rune, 'm'⟩))) :
    st1.marks.length = evs.countP (fun e => decide (e.2 = Event.key ⟨.Rune, 'm'⟩)) ∧
      st1.currentMark = (st1.marks.length : Int) - 1 ∧
      (∃ st m, runEvents st0 (evs ++ ns) = .next st ∧
        st.currentMark = (st1.marks.length : Int) - 1 ∧ st.marks = st1.marks ∧
        markAt st1.marks ((st1.marks.length : Int) - 1) = some m ∧
        st.buf.currentOffset = m.coords) ∧
      (∀ e : Size × Event, e.2 = .key ⟨.Rune, 'n'⟩ →
        ∃ st m, runEvents st0 (evs ++ [e]) = .next st ∧ st.currentMark = 0 ∧
          st.marks = st1.marks ∧ markAt st1.marks 0 = some m ∧
          st.buf.currentOffset = m.coords) ∧
      (∀ (pre post : List (Size × Event)) (sz : Size) (stp : Session),
        evs = pre ++ (sz, Event.key ⟨.Rune, 'm'⟩) :: post →
        runEvents st0 pre = .next stp →
        ((∀ e ∈ post, ∀ k, e.2 = .key k → k.rune ≠ 'm') →
          markAt st1.marks ((st1.marks.length : Int) - 1)
            = some ⟨stp.buf.currentOffset, ""⟩) ∧
        ((∀ e ∈ pre, ∀ k, e.2 = .key k → k.rune ≠ 'm') →
          markAt st1.marks 0 = some ⟨stp.buf.currentOffset, ""⟩)) := by
  have hevm : ∀ e ∈ evs, e.2 = .key ⟨.Rune, 'm'⟩ ∨ ∀ k, e.2 = .key k → k.rune ≠ 'm' := by
    intro e he
    rcases hev e he with h | h
    · exact Or.inl h
    · exact Or.inr (fun k hk => (h k hk).1)
  have hevj : ∀ e ∈ evs, ∀ k, e.2 = .key k → k.rune ≠ 'n' ∧ k.rune ≠ 'p' := by
    intro e he k hk
    rcases hev e he with h | h
    · rw [h] at hk
      injection hk with hk
      subst hk
      exact ⟨by decide, by decide⟩
    · exact (h k hk).2
  have hcount := runEvents_count_marks evs st0 st1 hevm hrun
  rw [hm0, List.length_nil, Nat.zero_add] at hcount
  have hcur : st1.currentMark = (st1.marks.length : Int) - 1 :=
    runEvents_cursor_at_end evs st0 st1 hevj (by rw [hc0, hm0]; rfl) hrun
  have hpos : 1 ≤ st1.marks.length := by omega
  have hnslen : ns.length = st1.marks.length := by omega
  refine ⟨hcount, hcur, ?_, ?_, ?_⟩
  · obtain ⟨st, hr, hmarks, hc, hoff⟩ :=
      runEvents_nexts ns st1 hns (by omega) (by omega)
    have hne : ns ≠ [] := by
      intro h
      rw [h] at hnslen
      simp only [List.length_nil] at hnslen
      omega
    have hc2 : st.currentMark = (st1.marks.length : Int) - 1 := by
      rw [hc, hcur, hnslen, Int.add_emod_self]
      exact Int.emod_eq_of_lt (by omega) (by omega)
    obtain ⟨m, h1, h2⟩ := hoff hne
    rw [hc2] at h1
    exact ⟨st, m, by rw [runEvents_append evs ns st0 st1 hrun]; exact hr, hc2, hmarks, h1, h2⟩
  · intro e he
    obtain ⟨st, hr, hmarks, hc, hoff⟩ := runEvents_nexts [e] st1
      (fun e1 he1 => by rw [List.mem_singleton.1 he1]; exact he) (by omega) (by omega)
    have hc2 : st.currentMark = 0 := by
      rw [hc, hcur]
      have e1 : (st1.marks.length : Int) - 1 + (([e] : List (Size × Event)).length : Int)
          = (st1.marks.length : Int) := by
        simp only [List.length_singleton, Nat.cast_one]
        omega
      rw [e1, Int.emod_self]
    obtain ⟨m, h1, h2⟩ := hoff (by simp)
    rw [hc2] at h1
    exact ⟨st, m, by rw [runEvents_append evs [e] st0 st1 hrun]; exact hr, hc2, hmarks, h1, h2⟩
  · intro pre post sz stp hsplit hpre
    rw [hsplit] at hrun
    have hpost := runEvents_setMark_split pre post sz st0 stp st1 hpre hrun
    constructor
    · intro hno
      have hmk := runEvents_noMark_marks post _ st1 hno hpost
      rw [nextMark_marks] at hmk
      have hmk2 : st1.marks = stp.marks ++ [⟨stp.buf.currentOffset, ""⟩] := hmk
      rw [hmk2]
      exact markAt_append_last _ _ _ rfl
    · intro hno
      have hp0 : stp.marks = [] := by
        rw [runEvents_noMark_marks pre st0 stp hno hpre, hm0]
      have hpre2 := runEvents_marks_prefix post _ st1 hpost
      rw [nextMark_marks] at hpre2
      have hpre3 : [(⟨stp.buf.currentOffset, ""⟩ : Mark)] <+: st1.marks := by
        have : stp.marks ++ [(⟨stp.buf.currentOffset, ""⟩ : Mark)]
            = [(⟨stp.buf.currentOffset, ""⟩ : Mark)] := by rw [hp0]; rfl
        rw [← this]
        exact hpre2
      exact markAt_of_prefix hpre3 0 _ rfl

/-- Instance of the amended C12 with `k = 3`: marks set at `(0,0)`, `(0,1)` and
`(0,2)`, then a line-down to `(0,3)`; three `n` commands end on cursor 2 and move
the offset from `(0,3)` back to `(0,2)`. -/
theorem marks_then_nexts_cycle_witness :
    ∃ st m, runEvents (Session.start fiveLines)
        ([(⟨10, 2⟩, .key ⟨.Rune, 'm'⟩), (⟨10, 2⟩, .key ⟨.Rune, 'j'⟩),
            (⟨10, 2⟩, .key ⟨.Rune, 'm'⟩), (⟨10, 2⟩, .key ⟨.Rune, 'j'⟩),
            (⟨10, 2⟩, .key ⟨.Rune, 'm'⟩), (⟨10, 2⟩, .key ⟨.Rune, 'j'⟩)] ++
          [(⟨10, 2⟩, .key ⟨.Rune, 'n'⟩), (⟨10, 2⟩, .key ⟨.Rune, 'n'⟩),
            (⟨10, 2⟩, .key ⟨.Rune, 'n'⟩)]) = .next st ∧
      st.currentMark = 2 ∧
      markAt [⟨⟨0, 0⟩, ""⟩, ⟨⟨0, 1⟩, ""⟩, ⟨⟨0, 2⟩, ""⟩] 2 = some m ∧
      st.buf.currentOffset = m.coords ∧ m.coords = ⟨0, 2⟩ ∧ (⟨0, 3⟩ : Coords) ≠ ⟨0, 2⟩ := by
  obtain ⟨st, m, h1, h2, _, h4, h5⟩ :=
    (marks_then_nexts_cycle (Session.start fiveLines)
      { buf := { currentOffset := ⟨0, 3⟩, lines := fiveLines },
        marks := [⟨⟨0, 0⟩, ""⟩, ⟨⟨0, 1⟩, ""⟩, ⟨⟨0, 2⟩, ""⟩], currentMark := 2 }
      [(⟨10, 2⟩, .key ⟨.Rune, 'm'⟩), (⟨10, 2⟩, .key ⟨.Rune, 'j'⟩),
        (⟨10, 2⟩, .key ⟨.Rune, 'm'⟩), (⟨10, 2⟩, .key ⟨.Rune, 'j'⟩),
        (⟨10, 2⟩, .key ⟨.Rune, 'm'⟩), (⟨10, 2⟩, .key ⟨.Rune, 'j'⟩)]
      [(⟨10, 2⟩, .key ⟨.Rune, 'n'⟩), (⟨10, 2⟩, .key ⟨.Rune, 'n'⟩),
        (⟨10, 2⟩, .key ⟨.Rune, 'n'⟩)]
      rfl rfl
      (by
        intro e he
        simp only [List.mem_cons, List.mem_singleton, List.not_mem_nil, or_false] at he
        rcases he with h | h | h | h | h | h <;> subst h
        · exact Or.inl rfl
        · exact Or.inr (fun k hk => by injection hk with hk; subst hk; decide)
        · exact Or.inl rfl
        · exact Or.inr (fun k hk => by injection hk with hk; subst hk; decide)
        · exact Or.inl rfl
        · exact Or.inr (fun k hk => by injection hk with hk; subst hk; decide))
      (by decide) (by decide) (by decide) (by decide)).2.2.1
  have e : (((3 : Nat) : Int)) - 1 = 2 := by decide
  simp only [List.length_cons, List.length_nil] at h2 h4
  rw [e] at h2 h4
  have hm : markAt [⟨⟨0, 0⟩, ""⟩, ⟨⟨0, 1⟩, ""⟩, ⟨⟨0, 2⟩, ""⟩] 2 = some ⟨⟨0, 2⟩, ""⟩ := by
    decide
  refine ⟨st, m, h1, h2, h4, h5, ?_, by decide⟩
  rw [hm] at h4
  injection h4 with h4
  rw [← h4]

/-! ## Agreement of the two forms of the event handler -/

theorem tdiv_two_bounds (v B : Int) (h0 : -B ≤ v) (h1 : v ≤ B) :
    -B ≤ Int.tdiv v 2 ∧ Int.tdiv v 2 ≤ B := by
  by_cases hv : 0 ≤ v
  · rw [Int.tdiv_eq_ediv hv (by decide)]
    omega
  · have e : v = -(-v) := by omega
    rw [e, Int.neg_tdiv, Int.tdiv_eq_ediv (by omega) (by decide)]
    omega

theorem nextMark64_eq_nextMark (st : Session) (hc : IsInt64 (st.currentMark + 1)) :
    nextMark64 st = nextMark st := by
  simp only [nextMark64, nextMark, wrap64_of_isInt64 hc]

theorem prevMark64_eq_prevMark (st : Session) (hc : IsInt64 (st.currentMark - 1))
    (hl : IsInt64 ((st.marks.length : Int) - 1)) : prevMark64 st = prevMark st := by
  simp only [prevMark64, prevMark, wrap64_of_isInt64 hc, wrap64_of_isInt64 hl]

/-- While offsets, sizes, the line count, the ring length and the cursor stay
within `2^61` in absolute value, no operation of the handler leaves the 64-bit
range and `processKey64` computes what `processKey` computes. -/
theorem processKey64_eq_processKey (sz : Size) (ev : EventKey) (st : Session)
    (hx : -2305843009213693952 ≤ st.buf.currentOffset.x ∧
      st.buf.currentOffset.x ≤ 2305843009213693952)
    (hy : -2305843009213693952 ≤ st.buf.currentOffset.y ∧
      st.buf.currentOffset.y ≤ 2305843009213693952)
    (hw : -2305843009213693952 ≤ sz.w ∧ sz.w ≤ 2305843009213693952)
    (hh : -2305843009213693952 ≤ sz.h ∧ sz.h ≤ 2305843009213693952)
    (hn : (st.buf.lines.length : Int) ≤ 2305843009213693952)
    (hl : (st.marks.length : Int) ≤ 2305843009213693952)
    (hc : -2305843009213693952 ≤ st.currentMark ∧ st.currentMark ≤ 2305843009213693952) :
    processKey64 sz ev st = processKey sz ev st := by
  have dh := tdiv_two_bounds sz.h 2305843009213693952 hh.1 hh.2
  have dw := tdiv_two_bounds sz.w 2305843009213693952 hw.1 hw.2
  have e1 : wrap64 (sz.h - 1) = sz.h - 1 := wrap64_of_isInt64 ⟨by omega, by omega⟩
  have e2 : wrap64 (st.buf.currentOffset.y + (sz.h - 1)) = st.buf.currentOffset.y + (sz.h - 1) :=
    wrap64_of_isInt64 ⟨by omega, by omega⟩
  have e3 : wrap64 (st.buf.currentOffset.y - (sz.h - 1)) = st.buf.currentOffset.y - (sz.h - 1) :=
    wrap64_of_isInt64 ⟨by omega, by omega⟩
  have e4 : wrap64 (st.buf.currentOffset.y + 1) = st.buf.currentOffset.y + 1 :=
    wrap64_of_isInt64 ⟨by omega, by omega⟩
  have e5 : wrap64 (st.buf.currentOffset.y + 1 + sz.h) = st.buf.currentOffset.y + 1 + sz.h :=
    wrap64_of_isInt64 ⟨by omega, by omega⟩
  have e6 : wrap64 ((st.buf.lines.length : Int) - sz.h) = (st.buf.lines.length : Int) - sz.h :=
    wrap64_of_isInt64 ⟨by omega, by omega⟩
  have e7 : wrap64 (st.buf.currentOffset.y - 1) = st.buf.currentOffset.y - 1 :=
    wrap64_of_isInt64 ⟨by omega, by omega⟩
  have e8 : wrap64 (st.buf.currentOffset.y + Int.tdiv sz.h 2)
      = st.buf.currentOffset.y + Int.tdiv sz.h 2 :=
    wrap64_of_isInt64 ⟨by omega, by omega⟩
  have e9 : wrap64 (st.buf.currentOffset.y + Int.tdiv sz.h 2 + sz.h)
      = st.buf.currentOffset.y + Int.tdiv sz.h 2 + sz.h :=
    wrap64_of_isInt64 ⟨by omega, by omega⟩
  have e10 : wrap64 (st.buf.currentOffset.y - Int.tdiv sz.h 2)
      = st.buf.currentOffset.y - Int.tdiv sz.h 2 :=
    wrap64_of_isInt64 ⟨by omega, by omega⟩
  have e11 : wrap64 (st.buf.currentOffset.x + 1) = st.buf.currentOffset.x + 1 :=
    wrap64_of_isInt64 ⟨by omega, by omega⟩
  have e12 : wrap64 (st.buf.currentOffset.x - 1) = st.buf.currentOffset.x - 1 :=
    wrap64_of_isInt64 ⟨by omega, by omega⟩
  have e13 : wrap64 (st.buf.currentOffset.x + Int.tdiv sz.w 2)
      = st.buf.currentOffset.x + Int.tdiv sz.w 2 :=
    wrap64_of_isInt64 ⟨by omega, by omega⟩
  have e14 : wrap64 (st.buf.currentOffset.x - Int.tdiv sz.w 2)
      = st.buf.currentOffset.x - Int.tdiv sz.w 2 :=
    wrap64_of_isInt64 ⟨by omega, by omega⟩
  have em : nextMark64 { st with marks := st.marks ++ [⟨st.buf.currentOffset, ""⟩] }
      = nextMark { st with marks := st.marks ++ [⟨st.buf.currentOffset, ""⟩] } :=
    nextMark64_eq_nextMark _ ⟨by show _ ≤ st.currentMark + 1; omega,
      by show st.currentMark + 1 < _; omega⟩
  have en : nextMark64 st = nextMark st :=
    nextMark64_eq_nextMark st ⟨by omega, by omega⟩
  have ep : prevMark64 st = prevMark st :=
    prevMark64_eq_prevMark st ⟨by omega, by omega⟩ ⟨by omega, by omega⟩
  unfold processKey64 processKey
  dsimp only
  refine ite_congr_branches rfl (ite_congr_branches rfl (ite_congr_branches ?_
    (ite_congr_branches ?_ (ite_congr_branches ?_ (ite_congr_branches ?_
    (ite_congr_branches ?_ (ite_congr_branches ?_ (ite_congr_branches ?_
    (ite_congr_branches ?_ (ite_congr_branches ?_ (ite_congr_branches ?_
    (ite_congr_branches ?_ (ite_congr_branches ?_ (ite_congr_branches rfl
    (ite_congr_branches rfl (ite_congr_branches ?_ (ite_congr_branches ?_
    (ite_congr_branches ?_ (ite_congr_branches ?_ rfl)))))))))))))))))))
  · rw [e1, e2]
  · rw [e1, e3]
  · rw [e4, e5, e6]
  · rw [e7]
  · rw [e8, e9, e6]
  · rw [e8, e9, e6]
  · rw [e10]
  · rw [e10]
  · rw [e11]
  · rw [e12]
  · rw [e13]
  · rw [e14]
  · rw [e6]
  · rw [em]
  · rw [en]
  · rw [ep]

end Logbrowser
